import Mathlib

/-!
Verification of the exam-kit repository's core text/retrieval pipeline.

Strings from the Python source are modelled as `List Char`; Python floats
as `ℚ`; Python dicts with known key sets as structures whose optional keys
are `Option` fields; raising code returns `Option` (`none` = exception).
-/

namespace ExamKit

/-- Python `str` whitespace characters (ASCII): used by `str.strip`,
`str.split()` and the regex class `\s`. -/
def isPyWs (c : Char) : Bool :=
  c = ' ' || c = '\t' || c = '\n' || c = '\r' || c = '\x0b' || c = '\x0c'

/-- Python `str.strip()`: remove leading and trailing whitespace. -/
def pyStrip (l : List Char) : List Char :=
  ((l.dropWhile isPyWs).reverse.dropWhile isPyWs).reverse

/-- Python `str.split(sep)` for a one-character separator. -/
def splitOnChar (sep : Char) : List Char → List (List Char)
  | [] => [[]]
  | c :: rest =>
    if c = sep then [] :: splitOnChar sep rest
    else
      match splitOnChar sep rest with
      | p :: ps => (c :: p) :: ps
      | [] => [[c]]

/-- Python `' '.join(parts)`. -/
def joinWords : List (List Char) → List Char
  | [] => []
  | [w] => w
  | w :: rest => w ++ ' ' :: joinWords rest

/-! ## Data model

A retrieval chunk (`src/examkit/nlp/retrieval.py`, `src/examkit/synthesis/citations.py`).
Python chunks are dicts; the keys the code reads are modelled as `Option`
fields (`none` = key absent) and `payload` stands for all other entries. -/

structure Chunk where
  source : Option (List Char)
  text : Option (List Char)
  start : Option ℚ
  slide_number : Option (List Char)
  question_id : Option (List Char)
  distance : Option ℚ
  payload : Nat
deriving DecidableEq, Inhabited, Repr

/-- `chunk.get("source", "unknown")`. -/
def Chunk.getSource (c : Chunk) : List Char := c.source.getD "unknown".toList

/-- `chunk.get("text", "")`. -/
def Chunk.getText (c : Chunk) : List Char := c.text.getD []

/-- A topic (`src/examkit/nlp/topic_mapping.py`); `id` and `name` are always
present after `load_topics`, `weight` may be absent (defaults to 1.0). -/
structure Topic where
  id : List Char
  name : List Char
  weight : Option ℚ
deriving DecidableEq, Inhabited, Repr

/-! ## Generic insertion-ordered dict (association list)

Python dicts preserve insertion order; the code manipulates
`{key: list}` dicts by appending to the value of an existing key. -/

/-- Keys of the dict, in insertion order. -/
def keysOf {α : Type} (m : List (List Char × List α)) : List (List Char) :=
  m.map Prod.fst

/-- `m[k]` where `k` is expected to be present; `m.get(k, [])` otherwise. -/
def lookupVal {α : Type} (m : List (List Char × List α)) (k : List Char) : List α :=
  ((m.find? (fun p => decide (p.1 = k))).map Prod.snd).getD []

/-- `m[k].append(x)`: append `x` to the value of the first entry with key `k`
(no-op when `k` is absent; callers only use present keys). -/
def addVal {α : Type} : List (List Char × List α) → List Char → α → List (List Char × List α)
  | [], _, _ => []
  | (k0, v) :: rest, k, x =>
    if k0 = k then (k0, v ++ [x]) :: rest else (k0, v) :: addVal rest k x

/-! ## `src/examkit/nlp/retrieval.py` -/

/-- Inner loop of `deduplicate_chunks`: for each remaining chunk, keep it iff
no already-kept chunk has the same `"text"`. -/
def dedupLoop : List Chunk → List Chunk → List Chunk
  | [], unique => unique
  | c :: rest, unique =>
    if unique.any (fun u => decide (u.getText = c.getText)) then dedupLoop rest unique
    else dedupLoop rest (unique ++ [c])

/-- `deduplicate_chunks(chunks, similarity_threshold)`: the first chunk is
always kept; later chunks are dropped when their text equals a kept chunk's
text.  `similarity_threshold` is unused by the code. -/
def deduplicate_chunks (chunks : List Chunk) (_similarity_threshold : ℚ) : List Chunk :=
  match chunks with
  | [] => []
  | c :: rest => dedupLoop rest [c]

/-- Reference definition following the spec's words for C5: keep, for each
distinct text value, exactly the first chunk bearing that text, in order. -/
def firstPerText : List Chunk → List (List Char) → List Chunk
  | [], _ => []
  | c :: rest, seen =>
    if c.getText ∈ seen then firstPerText rest seen
    else c :: firstPerText rest (c.getText :: seen)

/-- One step of `rank_by_source_diversity`'s grouping loop: append the chunk
to its source's group, creating the group at the end on first sight. -/
def groupStep (m : List (List Char × List Chunk)) (c : Chunk) :
    List (List Char × List Chunk) :=
  if c.getSource ∈ keysOf m then addVal m c.getSource c
  else m ++ [(c.getSource, [c])]

/-- `rank_by_source_diversity`: group chunks by source in insertion order. -/
def groupBySource (chunks : List Chunk) : List (List Char × List Chunk) :=
  chunks.foldl groupStep []

/-- The two source priority orders of `rank_by_source_diversity`. -/
def sourcePriority (prefer_exam : Bool) : List (List Char) :=
  if prefer_exam then ["exam".toList, "slides".toList, "transcript".toList, "asr".toList]
  else ["slides".toList, "transcript".toList, "exam".toList, "asr".toList]

/-- `by_source.get(source)` as an option (Python `source in by_source`). -/
def lookupGroup (m : List (List Char × List Chunk)) (s : List Char) : Option (List Chunk) :=
  (m.find? (fun p => decide (p.1 = s))).map Prod.snd

/-- `max(len(chunks_list) for chunks_list in by_source.values())` (0 for an
empty dict; the caller guarantees non-emptiness). -/
def maxGroupLen (by_source : List (List Char × List Chunk)) : Nat :=
  (by_source.map (fun p => p.2.length)).foldl max 0

/-- The interleave loop: `for i in range(max_len): for source in
source_priority: if source in by_source and i < len(by_source[source]):
reranked.append(by_source[source][i])`. -/
def interleaved (by_source : List (List Char × List Chunk))
    (priority : List (List Char)) (max_len : Nat) : List Chunk :=
  (List.range max_len).flatMap
    (fun i => priority.filterMap
      (fun s => (lookupGroup by_source s).bind (fun l => l.get? i)))

/-- The trailing loop: groups whose source is not in the priority list, in
dict (insertion) order. -/
def leftovers (by_source : List (List Char × List Chunk))
    (priority : List (List Char)) : List Chunk :=
  (by_source.filter (fun p => decide (p.1 ∉ priority))).flatMap Prod.snd

/-- `rank_by_source_diversity(chunks, prefer_exam)`: round-robin interleave of
the per-source groups in priority order, then the groups of non-prioritized
sources in dict order. -/
def rank_by_source_diversity (chunks : List Chunk) (prefer_exam : Bool) : List Chunk :=
  match chunks with
  | [] => []
  | _ =>
    interleaved (groupBySource chunks) (sourcePriority prefer_exam)
        (maxGroupLen (groupBySource chunks))
      ++ leftovers (groupBySource chunks) (sourcePriority prefer_exam)

/-- `filter_by_confidence(chunks, min_distance, max_distance)`. -/
def filter_by_confidence (chunks : List Chunk) (min_distance max_distance : ℚ) : List Chunk :=
  chunks.filter (fun c => decide (min_distance ≤ c.distance.getD 999 ∧ c.distance.getD 999 ≤ max_distance))

/-! ## `src/examkit/nlp/topic_mapping.py`

`map_chunks_to_topics` first calls the third-party
`sklearn.metrics.pairwise.cosine_similarity(chunk_embeddings, topic_embeddings)`;
that library call is abstracted here as the resulting `similarities` matrix
(row `i`, column `t` = cosine similarity of chunk `i` and topic `t`).
Everything after that call is the repository's own code and is translated
below. -/

/-- One step of the dict comprehension `{topic["id"]: [] for topic in
topics}` (a duplicated key keeps its first insertion position). -/
def initStep (m : List (List Char × List Nat)) (t : Topic) :
    List (List Char × List Nat) :=
  if t.id ∈ keysOf m then m else m ++ [(t.id, [])]

/-- `{topic["id"]: [] for topic in topics}`. -/
def initMapping (topics : List Topic) : List (List Char × List Nat) :=
  topics.foldl initStep []

/-- `topics[ti]["id"]` (callers guarantee `ti < topics.length`). -/
def idAt (topics : List Topic) (ti : Nat) : List Char := (topics.getD ti default).id

/-- Inner loop of `map_chunks_to_topics`: one row of the similarity matrix,
`for topic_idx, score in enumerate(sim_scores): if score >= threshold: append`. -/
def assignRow (topics : List Topic) (threshold : ℚ) (ci : Nat) :
    List ℚ → Nat → List (List Char × List Nat) → List (List Char × List Nat)
  | [], _, m => m
  | score :: rs, ti, m =>
    assignRow topics threshold ci rs (ti + 1)
      (if threshold ≤ score then addVal m (idAt topics ti) ci else m)

/-- Outer loop: `for chunk_idx, sim_scores in enumerate(similarities)`. -/
def assignAll (topics : List Topic) (threshold : ℚ) :
    List (List ℚ) → Nat → List (List Char × List Nat) → List (List Char × List Nat)
  | [], _, m => m
  | row :: rows, ci, m =>
    assignAll topics threshold rows (ci + 1) (assignRow topics threshold ci row 0 m)

/-- `map_chunks_to_topics(chunks, topics, chunk_embeddings, topic_embeddings,
threshold)`, with the sklearn cosine-similarity matrix passed explicitly. -/
def map_chunks_to_topics (topics : List Topic) (similarities : List (List ℚ))
    (threshold : ℚ) : List (List Char × List Nat) :=
  assignAll topics threshold similarities 0 (initMapping topics)

/-- One record of `calculate_coverage`'s result list. -/
structure CoverageRecord where
  topic_id : List Char
  name : List Char
  chunk_count : Nat
  coverage_percentage : ℚ
  weight : ℚ
  weighted_coverage : ℚ
deriving DecidableEq, Inhabited, Repr

/-- `calculate_coverage(topic_mapping, topics, total_chunks)`. -/
def calculate_coverage (topic_mapping : List (List Char × List Nat))
    (topics : List Topic) (total_chunks : Int) : List CoverageRecord :=
  topics.map (fun t =>
    let chunk_count := (lookupVal topic_mapping t.id).length
    let coverage_pct : ℚ :=
      if 0 < total_chunks then (chunk_count : ℚ) / (total_chunks : ℚ) * 100 else 0
    { topic_id := t.id
      name := t.name
      chunk_count := chunk_count
      coverage_percentage := coverage_pct
      weight := t.weight.getD 1
      weighted_coverage := coverage_pct * t.weight.getD 1 })

/-! ## `src/examkit/nlp/splitter.py` -/

/-- A text segment (the common record produced by ingestion and consumed by
the splitter).  Optional dict keys are `Option` fields; the boolean marker
keys `is_split` / `is_merged` are `false` when absent; `payload` stands for
any other dict entries (they are copied around unchanged). -/
structure Segment where
  source : Option (List Char)
  type : Option (List Char)
  start : Option ℚ
  stop : Option ℚ
  text : Option (List Char)
  index : Option Nat
  is_split : Bool
  is_merged : Bool
  payload : Nat
deriving DecidableEq, Inhabited, Repr

/-- `segment.get("text", "")`. -/
def Segment.getText (s : Segment) : List Char := s.text.getD []

/-- Python `text.split()` (split on whitespace runs, dropping empty pieces),
with explicit fuel (`fuel ≥ length` suffices; each step consumes ≥ 1 char). -/
def pySplitWsF : Nat → List Char → List (List Char)
  | 0, _ => []
  | _, [] => []
  | fuel + 1, c :: rest =>
    if isPyWs c then pySplitWsF fuel rest
    else
      (c :: rest.takeWhile (fun x => !isPyWs x)) ::
        pySplitWsF fuel (rest.dropWhile (fun x => !isPyWs x))

/-- Python `text.split()`. -/
def pySplitWs (l : List Char) : List (List Char) := pySplitWsF l.length l

/-- `chunk = segment.copy(); chunk["text"] = chunk_text; chunk["is_split"] = True`. -/
def mkSplitChunk (seg : Segment) (cur : List (List Char)) : Segment :=
  { seg with text := some (joinWords cur), is_split := true }

/-- Word-accumulation loop of `split_into_chunks` for one long segment:
state is `(current_chunk, current_length)`. -/
def splitLongLoop (seg : Segment) (max_chunk_size : Nat) :
    List (List Char) → List (List Char) → Nat → List Segment
  | [], cur, _ => if cur = [] then [] else [mkSplitChunk seg cur]
  | w :: ws, cur, curLen =>
    if max_chunk_size < curLen + (w.length + 1) ∧ cur ≠ [] then
      mkSplitChunk seg cur :: splitLongLoop seg max_chunk_size ws [w] (w.length + 1)
    else
      splitLongLoop seg max_chunk_size ws (cur ++ [w]) (curLen + (w.length + 1))

/-- `split_into_chunks(segments, max_chunk_size)`. -/
def split_into_chunks (segments : List Segment) (max_chunk_size : Nat) : List Segment :=
  segments.flatMap (fun seg =>
    let text := seg.getText
    if text.length ≤ max_chunk_size then [seg]
    else splitLongLoop seg max_chunk_size (pySplitWs text) [] 0)

/-- `' '.join([s.get("text", "") for s in buffer])`. -/
def joinTexts (buffer : List Segment) : List Char :=
  joinWords (buffer.map Segment.getText)

/-- `merged_segment = buffer[0].copy(); ... ["text"] = merged_text;
... ["is_merged"] = True`. -/
def mkMerged (buffer : List Segment) : Segment :=
  { buffer.headD default with text := some (joinTexts buffer), is_merged := true }

/-- Buffer loop of `merge_short_segments`. -/
def mergeLoop (min_length : Nat) : List Segment → List Segment → List Segment
  | [], buffer => if buffer = [] then [] else [mkMerged buffer]
  | seg :: rest, buffer =>
    if seg.getText.length < min_length then mergeLoop min_length rest (buffer ++ [seg])
    else
      (if buffer = [] then [] else [mkMerged buffer]) ++ seg :: mergeLoop min_length rest []

/-- `merge_short_segments(segments, min_length)`. -/
def merge_short_segments (segments : List Segment) (min_length : Nat) : List Segment :=
  mergeLoop min_length segments []

/-- Reference definition following the spec's words for C6: decompose the
input into maximal runs of consecutive short segments (`Sum.inl run`, with
`run` nonempty) and single non-short segments (`Sum.inr seg`), in order. -/
def runGroups (min_length : Nat) : List Segment → List (Sum (List Segment) Segment)
  | [] => []
  | s :: rest =>
    if s.getText.length < min_length then
      match runGroups min_length rest with
      | Sum.inl run :: gs => Sum.inl (s :: run) :: gs
      | gs => Sum.inl [s] :: gs
    else Sum.inr s :: runGroups min_length rest

/-- Collapse one group: a run of short segments becomes the merged segment,
a non-short segment stays itself. -/
def collapseGroup : Sum (List Segment) Segment → Segment
  | Sum.inl run => mkMerged run
  | Sum.inr s => s

/-! ## Number formatting and parsing (Python `f"{..:02d}"`, `int`, `float`) -/

/-- Decimal digit character for `d < 10`. -/
def digitChar (d : Nat) : Char := Char.ofNat (48 + d)

/-- Numeric value of a digit character. -/
def digVal (c : Char) : Nat := c.toNat - 48

/-- Decimal digits of `n`, least significant first (fuel `≥ n` suffices). -/
def natDigitsRev : Nat → Nat → List Char
  | 0, _ => []
  | _, 0 => []
  | fuel + 1, n => digitChar (n % 10) :: natDigitsRev fuel (n / 10)

/-- Decimal representation of a natural number (`"0"` for 0). -/
def natToDigits (n : Nat) : List Char :=
  if n = 0 then ['0'] else (natDigitsRev n n).reverse

/-- Python `f"{n:02d}"`: pad with a leading zero to width 2 (the sign counts
towards the width, so negative numbers are never padded here). -/
def formatInt02 (n : Int) : List Char :=
  let ds := natToDigits n.natAbs
  if n < 0 then '-' :: ds
  else if ds.length = 1 then '0' :: ds else ds

/-- Value of a digit string (callers guard non-digit/empty cases). -/
def natOfDigits (l : List Char) : Nat :=
  l.foldl (fun a c => a * 10 + digVal c) 0

/-- Digit-string parse used by `pyInt`/`pyFloat`. -/
def pyDigits? (l : List Char) : Option Nat :=
  if l ≠ [] ∧ l.all Char.isDigit then some (natOfDigits l) else none

/-- Python `int(s)` on the string forms this code produces (optional
whitespace, optional sign, decimal digits); `none` models `ValueError`. -/
def pyInt (l : List Char) : Option Int :=
  match pyStrip l with
  | '+' :: ds => (pyDigits? ds).map (fun n => (n : Int))
  | '-' :: ds => (pyDigits? ds).map (fun n => -(n : Int))
  | ds => (pyDigits? ds).map (fun n => (n : Int))

/-- Core of `pyFloat`: `digits`, `digits.digits`, `digits.` or `.digits`. -/
def pyFloatCore (ds : List Char) : Option ℚ :=
  let ip := ds.takeWhile Char.isDigit
  match ds.dropWhile Char.isDigit with
  | [] => if ip = [] then none else some ((natOfDigits ip : ℚ))
  | '.' :: fp =>
    if fp.all Char.isDigit ∧ (ip ≠ [] ∨ fp ≠ []) then
      some ((natOfDigits ip : ℚ) + (natOfDigits fp : ℚ) / (10 ^ fp.length))
    else none
  | _ => none

/-- Python `float(s)` on the decimal string forms this code produces
(optional whitespace, optional sign, digits with an optional fractional
part); `none` models `ValueError`.  Exponent/`inf`/`nan` forms never occur
in this code's inputs and are not modelled. -/
def pyFloat (l : List Char) : Option ℚ :=
  match pyStrip l with
  | '+' :: ds => pyFloatCore ds
  | '-' :: ds => (pyFloatCore ds).map (fun q => -q)
  | ds => pyFloatCore ds

/-! ## `src/examkit/utils/timecode.py` -/

/-- Python `a % b` for floats with `b > 0` (result in `[0, b)`). -/
def pymod (a b : ℚ) : ℚ := a - b * ⌊a / b⌋

/-- `seconds_to_timecode(seconds)`: `f"{hours:02d}:{minutes:02d}:{secs:02d}"`.
`int(seconds // 3600)` is `⌊s/3600⌋`; `int(x)` truncates toward zero, which
equals `⌊x⌋` for the non-negative values `(s % 3600) // 60` and `s % 60`. -/
def seconds_to_timecode (s : ℚ) : List Char :=
  formatInt02 ⌊s / 3600⌋ ++ ':' ::
    (formatInt02 ⌊pymod s 3600 / 60⌋ ++ ':' :: formatInt02 ⌊pymod s 60⌋)

/-- `timecode_to_seconds(timecode)`: split on `':'`; 3 parts = H:M:S, 2 parts
= M:S, otherwise `float(parts[0])`.  `none` models `ValueError`. -/
def timecode_to_seconds (tc : List Char) : Option ℚ :=
  match splitOnChar ':' tc with
  | [h, m, s] =>
    match pyInt h, pyInt m, pyFloat s with
    | some hh, some mm, some ss => some ((hh : ℚ) * 3600 + (mm : ℚ) * 60 + ss)
    | _, _, _ => none
  | [m, s] =>
    match pyInt m, pyFloat s with
    | some mm, some ss => some ((mm : ℚ) * 60 + ss)
    | _, _ => none
  | p :: _ => pyFloat p
  | [] => none

/-- `parse_vtt_timestamp(timestamp)`: drop the fractional part (text after
the first `'.'`), then `timecode_to_seconds`. -/
def parse_vtt_timestamp (ts : List Char) : Option ℚ :=
  timecode_to_seconds (ts.takeWhile (fun c => c ≠ '.'))

/-! ## `src/examkit/synthesis/citations.py` -/

/-- `CitationManager.format_citation(chunk)`. -/
def format_citation (c : Chunk) : List Char :=
  let source_type := c.getSource
  if source_type = "transcript".toList ∨ source_type = "asr".toList then
    match c.start with
    | some s => '[' :: 'v' :: 'i' :: 'd' :: ' ' :: (seconds_to_timecode s ++ [']'])
    | none => ['[', 'v', 'i', 'd', ']']
  else if source_type = "slides".toList then
    '[' :: 's' :: 'l' :: 'i' :: 'd' :: 'e' :: ' ' :: (c.slide_number.getD "?".toList ++ [']'])
  else if source_type = "exam".toList then
    '[' :: 'e' :: 'x' :: 'a' :: 'm' :: ' ' :: (c.question_id.getD "?".toList ++ [']'])
  else '[' :: (source_type ++ [']'])

/-! ## `src/examkit/qa/checks.py` -/

/-- The alternation `(vid|slide|exam)` of the citation regex, tried at the
head of the input; returns the captured group and the rest.  The three
literals start with distinct characters, so the alternation order cannot
matter. -/
def tagOf : List Char → Option (List Char × List Char)
  | 'v' :: 'i' :: 'd' :: r => some ("vid".toList, r)
  | 's' :: 'l' :: 'i' :: 'd' :: 'e' :: r => some ("slide".toList, r)
  | 'e' :: 'x' :: 'a' :: 'm' :: r => some ("exam".toList, r)
  | _ => none

/-- `[^\]]*\]` after the tag: scan to the first `']'`; `none` when no `']'`
follows (the regex fails at this start position). -/
def afterTag (r : List Char) : Option (List Char) :=
  match r.dropWhile (fun c => c ≠ ']') with
  | ']' :: r2 => some r2
  | _ => none

/-- `re.findall(r'\[(vid|slide|exam)[^\]]*\]', content)`: leftmost,
non-overlapping matches; on failure the scan advances one position.  Fuel
`≥ length` suffices (each step consumes at least one character). -/
def findCitationsF : Nat → List Char → List (List Char)
  | 0, _ => []
  | _ + 1, [] => []
  | fuel + 1, '[' :: rest =>
    (match tagOf rest with
     | some (tag, r) =>
       match afterTag r with
       | some r2 => tag :: findCitationsF fuel r2
       | none => findCitationsF fuel rest
     | none => findCitationsF fuel rest)
  | fuel + 1, _ :: rest => findCitationsF fuel rest

/-- All citation-tag captures in `content`. -/
def findCitations (l : List Char) : List (List Char) := findCitationsF l.length l

/-- Result record of `check_citation_presence` (the nested
`citation_types` dict is flattened into the three count fields). -/
structure CitationCheck where
  total_citations : Nat
  has_citations : Bool
  video : Nat
  slides : Nat
  exam : Nat
deriving DecidableEq, Repr

/-- `check_citation_presence(content)`. -/
def check_citation_presence (content : List Char) : CitationCheck :=
  let citations := findCitations content
  { total_citations := citations.length
    has_citations := decide (0 < citations.length)
    video := citations.count "vid".toList
    slides := citations.count "slide".toList
    exam := citations.count "exam".toList }

/-! ## `src/examkit/utils/math_utils.py` -/

/-- `re.findall(r'\$([^\$]+)\$', text)`: inline math captures.  Fuel
`≥ length` suffices. -/
def findInlineF : Nat → List Char → List (List Char)
  | 0, _ => []
  | _ + 1, [] => []
  | fuel + 1, '$' :: rest =>
    (let run := rest.takeWhile (fun c => c ≠ '$')
     if run = [] then findInlineF fuel rest
     else
       match rest.dropWhile (fun c => c ≠ '$') with
       | '$' :: r2 => run :: findInlineF fuel r2
       | _ => findInlineF fuel rest)
  | fuel + 1, _ :: rest => findInlineF fuel rest

/-- `re.findall(r'\$\$([^\$]+)\$\$', text)`: display math captures.  Fuel
`≥ length` suffices. -/
def findDisplayF : Nat → List Char → List (List Char)
  | 0, _ => []
  | _ + 1, [] => []
  | fuel + 1, '$' :: '$' :: rest =>
    (let run := rest.takeWhile (fun c => c ≠ '$')
     if run = [] then findDisplayF fuel ('$' :: rest)
     else
       match rest.dropWhile (fun c => c ≠ '$') with
       | '$' :: '$' :: r2 => run :: findDisplayF fuel r2
       | _ => findDisplayF fuel ('$' :: rest))
  | fuel + 1, _ :: rest => findDisplayF fuel rest

/-- `extract_latex_formulas(text)`: inline matches then display matches. -/
def extract_latex_formulas (text : List Char) : List (List Char) :=
  findInlineF text.length text ++ findDisplayF text.length text

/-- ASCII letter (`[a-zA-Z]`). -/
def isAsciiLetter (c : Char) : Bool :=
  ('a' ≤ c && c ≤ 'z') || ('A' ≤ c && c ≤ 'Z')

/-- One attempt of `re.search(r'\\[a-zA-Z]+\s*\{[^}]*$', formula)` at the
head of the input.  `[^}]*$` succeeds exactly when no `'}'` remains (a `$`
match just before a trailing newline needs everything before it, newline
included, to be non-`'}'`, so that case is subsumed). -/
def unclosedCmdAt : List Char → Bool
  | '\\' :: r =>
    (if r.takeWhile isAsciiLetter = [] then false
     else
       match (r.dropWhile isAsciiLetter).dropWhile isPyWs with
       | '{' :: t => !(t.any (fun c => c = '}'))
       | _ => false)
  | _ => false

/-- `re.search` of the unclosed-command pattern: try every position. -/
def searchUnclosedCmd : List Char → Bool
  | [] => false
  | c :: rest => unclosedCmdAt (c :: rest) || searchUnclosedCmd rest

/-- `re.search(r'\$\$', formula)`: literal `"$$"` occurs. -/
def containsDD : List Char → Bool
  | [] => false
  | '$' :: '$' :: _ => true
  | _ :: rest => containsDD rest

/-- `validate_latex_formula(formula)`. -/
def validate_latex_formula (f : List Char) : Bool :=
  if f.count '{' ≠ f.count '}' then false
  else if f.count '[' ≠ f.count ']' then false
  else if f.count '(' ≠ f.count ')' then false
  else if searchUnclosedCmd f then false
  else if containsDD f then false
  else true

/-- Result record of `check_formula_compilation`. -/
structure FormulaCheck where
  total_formulas : Nat
  valid_formulas : Nat
  invalid_formulas : List (List Char)
  passed : Bool
deriving DecidableEq, Repr

/-- `check_formula_compilation(content)`. -/
def check_formula_compilation (content : List Char) : FormulaCheck :=
  let formulas := extract_latex_formulas content
  let invalid := formulas.filter (fun f => !validate_latex_formula f)
  { total_formulas := formulas.length
    valid_formulas := formulas.length - invalid.length
    invalid_formulas := invalid
    passed := decide (invalid.length = 0) }

/-! ## `src/examkit/ingestion/transcript_normalizer.py`

Exceptions raised by `int`/`float` inside timestamp parsing abort the whole
parse; `none` models that.  The common segment record is `Segment` above
(`start`/`stop` hold `none` where the Python dict holds `None`). -/

/-- Python `'-->' in line`. -/
def containsArrow : List Char → Bool
  | [] => false
  | '-' :: '-' :: '>' :: _ => true
  | _ :: rest => containsArrow rest

/-- `re.match(r'(CLS+)\s*-->\s*(CLS+)', line)` for a timestamp character
class `CLS`: both groups are maximal nonempty runs of class characters
(`'-'` is neither in the class nor whitespace, so greedy matching is
complete).  `re.match` anchors at the start only. -/
def matchTimestampPair (cls : Char → Bool) (l : List Char) :
    Option (List Char × List Char) :=
  let g1 := l.takeWhile cls
  if g1 = [] then none
  else
    match (l.dropWhile cls).dropWhile isPyWs with
    | '-' :: '-' :: '>' :: r2 =>
      let g2 := (r2.dropWhile isPyWs).takeWhile cls
      if g2 = [] then none else some (g1, g2)
    | _ => none

/-- `[\d:\.]` (VTT timestamps). -/
def vttTsChar (c : Char) : Bool := c.isDigit || c = ':' || c = '.'

/-- `[\d:,]` (SRT timestamps). -/
def srtTsChar (c : Char) : Bool := c.isDigit || c = ':' || c = ','

/-- Build one normalized transcript segment. -/
def mkTranscriptSeg (fmt : List Char) (st en : Option ℚ) (text : List Char)
    (idx : Option Nat) : Segment :=
  { source := some "transcript".toList, type := some fmt, start := st, stop := en,
    text := some text, index := idx, is_split := false, is_merged := false, payload := 0 }

/-- Line loop of `parse_vtt`: on a (stripped) timestamp line, collect the
following stripped lines up to a blank one as the caption text, skip the
blank, and continue; fuel `≥ lines.length` suffices (each step consumes at
least one line). -/
def parseVttLoop : Nat → List (List Char) → Option (List Segment)
  | 0, _ => some []
  | _ + 1, [] => some []
  | fuel + 1, line :: rest =>
    let l := pyStrip line
    if containsArrow l then
      match matchTimestampPair vttTsChar l with
      | some (g1, g2) =>
        match parse_vtt_timestamp g1, parse_vtt_timestamp g2 with
        | some st, some en =>
          let text := joinWords ((rest.takeWhile (fun x => pyStrip x ≠ [])).map pyStrip)
          let rest2 := (rest.dropWhile (fun x => pyStrip x ≠ [])).drop 1
          (parseVttLoop fuel rest2).map (fun segs =>
            if text = [] then segs
            else mkTranscriptSeg "vtt".toList (some st) (some en) text none :: segs)
        | _, _ => none
      | none => parseVttLoop fuel rest
    else parseVttLoop fuel rest

/-- `parse_vtt(content)`. -/
def parse_vtt (content : List Char) : Option (List Segment) :=
  parseVttLoop (splitOnChar '\n' content).length (splitOnChar '\n' content)

/-- Python `s.split('\n\n')` (non-overlapping, left to right). -/
def splitDoubleNewline : List Char → List (List Char)
  | [] => [[]]
  | '\n' :: '\n' :: rest => [] :: splitDoubleNewline rest
  | c :: rest =>
    match splitDoubleNewline rest with
    | p :: ps => (c :: p) :: ps
    | [] => [[c]]

/-- One SRT block: `none` = exception, `some none` = block skipped,
`some (some seg)` = one segment. -/
def parseSrtBlock (block : List Char) : Option (Option Segment) :=
  let lines := splitOnChar '\n' block
  if lines.length < 3 then some none
  else
    match matchTimestampPair srtTsChar (lines.getD 1 []) with
    | none => some none
    | some (g1, g2) =>
      match parse_vtt_timestamp (g1.map (fun c => if c = ',' then '.' else c)),
            parse_vtt_timestamp (g2.map (fun c => if c = ',' then '.' else c)) with
      | some st, some en =>
        let text := joinWords (lines.drop 2)
        some (if text = [] then none
              else some (mkTranscriptSeg "srt".toList (some st) (some en) text none))
      | _, _ => none

/-- Block loop of `parse_srt`. -/
def parseSrtBlocks : List (List Char) → Option (List Segment)
  | [] => some []
  | b :: bs =>
    match parseSrtBlock b with
    | none => none
    | some none => parseSrtBlocks bs
    | some (some seg) => (parseSrtBlocks bs).map (fun segs => seg :: segs)

/-- `parse_srt(content)`. -/
def parse_srt (content : List Char) : Option (List Segment) :=
  parseSrtBlocks (splitDoubleNewline (pyStrip content))

/-- `parse_txt(content)`: paragraphs split on blank lines, stripped, empty
paragraphs dropped; never raises. -/
def parse_txt (content : List Char) : List Segment :=
  let paragraphs := ((splitDoubleNewline content).map pyStrip).filter (fun p => p ≠ [])
  paragraphs.enum.map (fun pi => mkTranscriptSeg "txt".toList none none pi.2 (some pi.1))

/-! ## Proof-support definitions -/

/-- Chunk indices appended for topic column `tj` while scanning the rows of
the similarity matrix starting at chunk index `c` (used to describe
`assignAll`'s effect on one topic's list). -/
def hitsFor (threshold : ℚ) (tj : Nat) : List (List ℚ) → Nat → List Nat
  | [], _ => []
  | row :: rows, c =>
    (if threshold ≤ row.getD tj 0 then [c] else []) ++ hitsFor threshold tj rows (c + 1)

/-- Prepend a (possibly empty) buffered run of short segments onto a group
decomposition, fusing with a leading run. -/
def prependRun (buf : List Segment) :
    List (Sum (List Segment) Segment) → List (Sum (List Segment) Segment)
  | gs =>
    if buf = [] then gs
    else
      match gs with
      | Sum.inl run :: gs2 => Sum.inl (buf ++ run) :: gs2
      | gs2 => Sum.inl buf :: gs2

/-- Flatten a group decomposition back to the segment list. -/
def flattenGroups : List (Sum (List Segment) Segment) → List Segment
  | [] => []
  | Sum.inl run :: gs => run ++ flattenGroups gs
  | Sum.inr s :: gs => s :: flattenGroups gs

/-- `current_length` invariant value: `sum(len(w) + 1 for w in cur)`. -/
def sumLens (cur : List (List Char)) : Nat :=
  (cur.map (fun w => w.length + 1)).sum

/-! # Theorems -/

/-! ## C5: `deduplicate_chunks` -/

theorem firstPerText_seen_ext (l : List Chunk) :
    ∀ s1 s2 : List (List Char), (∀ x, x ∈ s1 ↔ x ∈ s2) →
      firstPerText l s1 = firstPerText l s2 := by
  induction l with
  | nil => intro s1 s2 _; rfl
  | cons c rest ih =>
    intro s1 s2 h
    simp only [firstPerText]
    by_cases hc : c.getText ∈ s1
    · rw [if_pos hc, if_pos ((h _).mp hc), ih _ _ h]
    · rw [if_neg hc, if_neg (fun hx => hc ((h _).mpr hx))]
      exact congrArg (c :: ·)
        (ih (c.getText :: s1) (c.getText :: s2)
          (fun x => by simp only [List.mem_cons, h x]))

theorem dedupLoop_eq (rest : List Chunk) :
    ∀ unique : List Chunk,
      dedupLoop rest unique = unique ++ firstPerText rest (unique.map Chunk.getText) := by
  induction rest with
  | nil => intro u; simp [dedupLoop, firstPerText]
  | cons c cs ih =>
    intro u
    simp only [dedupLoop, firstPerText]
    by_cases hmem : c.getText ∈ u.map Chunk.getText
    · have hany : (u.any fun x => decide (x.getText = c.getText)) = true := by
        simp only [List.any_eq_true, decide_eq_true_eq]
        obtain ⟨y, hy, hyt⟩ := List.mem_map.mp hmem
        exact ⟨y, hy, hyt⟩
      rw [hany, if_pos rfl, if_pos hmem, ih u]
    · have hany : (u.any fun x => decide (x.getText = c.getText)) = false := by
        simp only [List.any_eq_false, decide_eq_true_eq]
        intro y hy hyt
        exact hmem (List.mem_map.mpr ⟨y, hy, hyt⟩)
      rw [hany, if_neg (by simp), if_neg hmem, ih (u ++ [c]), List.append_assoc,
        List.singleton_append]
      have hext : firstPerText cs ((u ++ [c]).map Chunk.getText)
          = firstPerText cs (c.getText :: u.map Chunk.getText) :=
        firstPerText_seen_ext cs _ _
          (fun x => by simp [List.mem_cons, List.mem_append, or_comm])
      rw [hext]

theorem firstPerText_sublist (l : List Chunk) :
    ∀ seen, (firstPerText l seen).Sublist l := by
  induction l with
  | nil => intro seen; simp [firstPerText]
  | cons c cs ih =>
    intro seen
    simp only [firstPerText]
    split
    · exact (ih _).cons c
    · exact (ih _).cons₂ c

theorem firstPerText_not_mem_seen (l : List Chunk) :
    ∀ seen x, x ∈ firstPerText l seen → x.getText ∉ seen := by
  induction l with
  | nil => intro seen x hx; simp [firstPerText] at hx
  | cons c cs ih =>
    intro seen x hx
    simp only [firstPerText] at hx
    by_cases hc : c.getText ∈ seen
    · rw [if_pos hc] at hx; exact ih _ _ hx
    · rw [if_neg hc] at hx
      rcases List.mem_cons.mp hx with rfl | hx
      · exact hc
      · intro hseen
        exact ih _ _ hx (List.mem_cons_of_mem _ hseen)

theorem firstPerText_pairwise (l : List Chunk) :
    ∀ seen, List.Pairwise (fun a b => a.getText ≠ b.getText) (firstPerText l seen) := by
  induction l with
  | nil => intro seen; simp [firstPerText]
  | cons c cs ih =>
    intro seen
    simp only [firstPerText]
    split
    · exact ih _
    · refine List.Pairwise.cons (fun b hb => ?_) (ih _)
      have := firstPerText_not_mem_seen cs _ b hb
      intro hEq
      exact this (by rw [← hEq]; exact List.mem_cons_self _ _)

/-- C5: `deduplicate_chunks` keeps exactly the first chunk of each distinct
`"text"` value, in original order (it equals the reference `firstPerText`
and is a sublist of the input), the output texts are pairwise distinct, and
the `similarity_threshold` argument has no effect on the result. -/
theorem deduplicate_chunks_spec (chunks : List Chunk) (t1 t2 : ℚ) :
    deduplicate_chunks chunks t1 = firstPerText chunks []
    ∧ (deduplicate_chunks chunks t1).Sublist chunks
    ∧ List.Pairwise (fun a b => a.getText ≠ b.getText) (deduplicate_chunks chunks t1)
    ∧ deduplicate_chunks chunks t1 = deduplicate_chunks chunks t2 := by
  have hmain : deduplicate_chunks chunks t1 = firstPerText chunks [] := by
    cases chunks with
    | nil => rfl
    | cons c rest =>
      simp only [deduplicate_chunks, dedupLoop_eq rest [c], firstPerText,
        List.not_mem_nil, if_neg (fun h => h)]
      simp
  refine ⟨hmain, ?_, ?_, rfl⟩
  · rw [hmain]; exact firstPerText_sublist chunks []
  · rw [hmain]; exact firstPerText_pairwise chunks []

/-! ## C7: `calculate_coverage` -/

/-- C7: `calculate_coverage` returns one record per topic, in topic order;
the `i`-th record carries the `i`-th topic's id and name, its chunk count is
the length of that topic's list in the mapping (0 when absent, via
`lookupVal`'s default), its coverage percentage is `count / total * 100`
when `total_chunks > 0` and `0` otherwise, its weight defaults to 1, and its
weighted coverage is `coverage_percentage * weight`. -/
theorem calculate_coverage_spec (topic_mapping : List (List Char × List Nat))
    (topics : List Topic) (total_chunks : Int) :
    (calculate_coverage topic_mapping topics total_chunks).length = topics.length
    ∧ ∀ i, i < topics.length →
        ((calculate_coverage topic_mapping topics total_chunks).getD i default).topic_id
            = (topics.getD i default).id
        ∧ ((calculate_coverage topic_mapping topics total_chunks).getD i default).name
            = (topics.getD i default).name
        ∧ ((calculate_coverage topic_mapping topics total_chunks).getD i default).chunk_count
            = (lookupVal topic_mapping (topics.getD i default).id).length
        ∧ ((calculate_coverage topic_mapping topics total_chunks).getD i default).coverage_percentage
            = (if 0 < total_chunks then
                (((calculate_coverage topic_mapping topics total_chunks).getD i default).chunk_count : ℚ)
                  / (total_chunks : ℚ) * 100
               else 0)
        ∧ ((calculate_coverage topic_mapping topics total_chunks).getD i default).weight
            = ((topics.getD i default).weight).getD 1
        ∧ ((calculate_coverage topic_mapping topics total_chunks).getD i default).weighted_coverage
            = ((calculate_coverage topic_mapping topics total_chunks).getD i default).coverage_percentage
              * ((calculate_coverage topic_mapping topics total_chunks).getD i default).weight := by
  constructor
  · exact List.length_map topics _
  · intro i hi
    have hlen : i < (calculate_coverage topic_mapping topics total_chunks).length := by
      unfold calculate_coverage; rw [List.length_map]; exact hi
    have hrec : (calculate_coverage topic_mapping topics total_chunks).getD i default
        = (calculate_coverage topic_mapping topics total_chunks)[i] :=
      List.getD_eq_getElem _ _ hlen
    have htop : (topics.getD i default) = topics[i] := List.getD_eq_getElem _ _ hi
    rw [hrec, htop]
    unfold calculate_coverage
    rw [List.getElem_map]
    refine ⟨rfl, rfl, rfl, ?_, rfl, rfl⟩
    by_cases h : 0 < total_chunks <;> simp [h]

/-- Closed instance of C7 at concrete data, discharging `i < topics.length`. -/
theorem calculate_coverage_spec_witness :
    (0 : Nat) < ([⟨"t1".toList, "T1".toList, none⟩, ⟨"t2".toList, "T2".toList, some 2⟩] : List Topic).length
    ∧ ((calculate_coverage [("t1".toList, [0, 2])]
          [⟨"t1".toList, "T1".toList, none⟩, ⟨"t2".toList, "T2".toList, some 2⟩] 4).getD 0 default).topic_id
        = (([⟨"t1".toList, "T1".toList, none⟩, ⟨"t2".toList, "T2".toList, some 2⟩] : List Topic).getD 0 default).id := by
  refine ⟨by decide, ?_⟩
  exact ((calculate_coverage_spec [("t1".toList, [0, 2])]
    [⟨"t1".toList, "T1".toList, none⟩, ⟨"t2".toList, "T2".toList, some 2⟩] 4).2 0 (by decide)).1

/-! ## Shared lemmas on digits, formatting and parsing -/

theorem digVal_digitChar : ∀ d, d < 10 → digVal (digitChar d) = d := by decide

theorem digitChar_isDigit : ∀ d, d < 10 → (digitChar d).isDigit = true := by decide

theorem isDigit_not_ws (c : Char) (h : c.isDigit = true) : isPyWs c = false := by
  by_contra hws
  have : isPyWs c = true := by revert hws; cases isPyWs c <;> simp
  simp only [isPyWs, Bool.or_eq_true, decide_eq_true_eq] at this
  rcases this with ((((h1 | h1) | h1) | h1) | h1) | h1 <;>
    (subst h1; exact absurd h (by decide))

theorem dropWhile_all_false {l : List Char} {p : Char → Bool}
    (h : ∀ c ∈ l, p c = false) : l.dropWhile p = l := by
  cases l with
  | nil => rfl
  | cons c rest => rw [List.dropWhile_cons, h c (List.mem_cons_self _ _)]; simp

theorem pyStrip_eq_self {l : List Char} (h : ∀ c ∈ l, isPyWs c = false) :
    pyStrip l = l := by
  unfold pyStrip
  rw [dropWhile_all_false h,
    dropWhile_all_false (fun c hc => h c (List.mem_reverse.mp hc)),
    List.reverse_reverse]

theorem natDigitsRev_succ (fuel m : Nat) :
    natDigitsRev (fuel + 1) (m + 1)
      = digitChar ((m + 1) % 10) :: natDigitsRev fuel ((m + 1) / 10) := rfl

theorem natDigitsRev_digits : ∀ fuel n, ∀ c ∈ natDigitsRev fuel n, c.isDigit = true := by
  intro fuel
  induction fuel with
  | zero => intro n c hc; simp [natDigitsRev] at hc
  | succ fuel ih =>
    intro n c hc
    cases n with
    | zero => simp [natDigitsRev] at hc
    | succ m =>
      rw [natDigitsRev_succ] at hc
      rcases List.mem_cons.mp hc with rfl | hc
      · exact digitChar_isDigit _ (Nat.mod_lt _ (by omega))
      · exact ih _ _ hc

theorem natToDigits_digits (n : Nat) : ∀ c ∈ natToDigits n, c.isDigit = true := by
  intro c hc
  unfold natToDigits at hc
  split at hc
  · rcases List.mem_singleton.mp hc with rfl; decide
  · exact natDigitsRev_digits _ _ _ (List.mem_reverse.mp hc)

theorem natToDigits_ne_nil (n : Nat) : natToDigits n ≠ [] := by
  unfold natToDigits
  split
  · simp
  · intro h
    rw [List.reverse_eq_nil_iff] at h
    cases hn : n with
    | zero => omega
    | succ m =>
      subst hn
      rw [natDigitsRev_succ] at h
      exact List.cons_ne_nil _ _ h

theorem natOfDigits_append_singleton (xs : List Char) (c : Char) :
    natOfDigits (xs ++ [c]) = natOfDigits xs * 10 + digVal c := by
  unfold natOfDigits
  rw [List.foldl_append]
  rfl

theorem natOfDigits_natDigitsRev :
    ∀ fuel n, n ≤ fuel → natOfDigits (natDigitsRev fuel n).reverse = n := by
  intro fuel
  induction fuel with
  | zero =>
    intro n hn
    have : n = 0 := by omega
    subst this; rfl
  | succ fuel ih =>
    intro n hn
    cases n with
    | zero => rfl
    | succ m =>
      rw [natDigitsRev_succ, List.reverse_cons, natOfDigits_append_singleton,
        ih _ (by
          have := Nat.div_lt_self (show 0 < m + 1 by omega) (show 1 < 10 by omega)
          omega),
        digVal_digitChar _ (Nat.mod_lt _ (by omega))]
      omega

theorem natOfDigits_natToDigits (n : Nat) : natOfDigits (natToDigits n) = n := by
  unfold natToDigits
  split
  · rename_i h; rw [h]; decide
  · exact natOfDigits_natDigitsRev n n le_rfl

theorem natOfDigits_cons_zero (ds : List Char) :
    natOfDigits ('0' :: ds) = natOfDigits ds := rfl

theorem formatInt02_chars (k : Int) : ∀ c ∈ formatInt02 k, c.isDigit = true ∨ c = '-' := by
  intro c hc
  simp only [formatInt02] at hc
  split at hc
  · rcases List.mem_cons.mp hc with rfl | hc
    · exact Or.inr rfl
    · exact Or.inl (natToDigits_digits _ _ hc)
  · split at hc
    · rcases List.mem_cons.mp hc with rfl | hc
      · exact Or.inl (by decide)
      · exact Or.inl (natToDigits_digits _ _ hc)
    · exact Or.inl (natToDigits_digits _ _ hc)

theorem formatInt02_no_ws (k : Int) : ∀ c ∈ formatInt02 k, isPyWs c = false := by
  intro c hc
  rcases formatInt02_chars k c hc with h | rfl
  · exact isDigit_not_ws c h
  · decide

theorem formatInt02_no_colon (k : Int) : ∀ c ∈ formatInt02 k, c ≠ ':' := by
  intro c hc
  rcases formatInt02_chars k c hc with h | rfl
  · intro h2; subst h2; exact absurd h (by decide)
  · decide

theorem formatInt02_nonneg_digits (k : Int) (hk : 0 ≤ k) :
    ∀ c ∈ formatInt02 k, c.isDigit = true := by
  intro c hc
  simp only [formatInt02, if_neg (not_lt.mpr hk)] at hc
  split at hc
  · rcases List.mem_cons.mp hc with rfl | hc
    · decide
    · exact natToDigits_digits _ _ hc
  · exact natToDigits_digits _ _ hc

theorem formatInt02_ne_nil (k : Int) : formatInt02 k ≠ [] := by
  simp only [formatInt02]
  split
  · simp
  · split
    · simp
    · exact natToDigits_ne_nil _

theorem natOfDigits_formatInt02 (k : Int) (hk : 0 ≤ k) :
    natOfDigits (formatInt02 k) = k.natAbs := by
  simp only [formatInt02, if_neg (not_lt.mpr hk)]
  split
  · rw [natOfDigits_cons_zero, natOfDigits_natToDigits]
  · rw [natOfDigits_natToDigits]

theorem pyDigits?_all (l : List Char) (hne : l ≠ []) (hds : ∀ x ∈ l, x.isDigit = true) :
    pyDigits? l = some (natOfDigits l) := by
  unfold pyDigits?
  rw [if_pos ⟨hne, List.all_eq_true.mpr hds⟩]

theorem pyInt_digits (c : Char) (ds : List Char) (hc : c.isDigit = true)
    (hds : ∀ x ∈ ds, x.isDigit = true) :
    pyInt (c :: ds) = some ((natOfDigits (c :: ds) : Nat) : Int) := by
  have hall : ∀ x ∈ c :: ds, isPyWs x = false := by
    intro x hx
    rcases List.mem_cons.mp hx with rfl | hx
    · exact isDigit_not_ws _ hc
    · exact isDigit_not_ws _ (hds _ hx)
  have hdsall : ∀ x ∈ c :: ds, x.isDigit = true := by
    intro x hx
    rcases List.mem_cons.mp hx with rfl | hx
    · exact hc
    · exact hds _ hx
  unfold pyInt
  rw [pyStrip_eq_self hall]
  split
  · rename_i ds' heq
    injection heq with h1 _
    exact absurd (h1 ▸ hc) (by decide)
  · rename_i ds' heq
    injection heq with h1 _
    exact absurd (h1 ▸ hc) (by decide)
  · rw [pyDigits?_all _ (List.cons_ne_nil _ _) hdsall]
    rfl

theorem pyFloat_digits (c : Char) (ds : List Char) (hc : c.isDigit = true)
    (hds : ∀ x ∈ ds, x.isDigit = true) :
    pyFloat (c :: ds) = some ((natOfDigits (c :: ds) : ℚ)) := by
  have hall : ∀ x ∈ c :: ds, isPyWs x = false := by
    intro x hx
    rcases List.mem_cons.mp hx with rfl | hx
    · exact isDigit_not_ws _ hc
    · exact isDigit_not_ws _ (hds _ hx)
  have hdsall : ∀ x ∈ c :: ds, x.isDigit = true := by
    intro x hx
    rcases List.mem_cons.mp hx with rfl | hx
    · exact hc
    · exact hds _ hx
  unfold pyFloat
  rw [pyStrip_eq_self hall]
  split
  · rename_i ds' heq
    injection heq with h1 _
    exact absurd (h1 ▸ hc) (by decide)
  · rename_i ds' heq
    injection heq with h1 _
    exact absurd (h1 ▸ hc) (by decide)
  · unfold pyFloatCore
    rw [List.takeWhile_eq_self_iff.mpr hdsall, List.dropWhile_eq_nil_iff.mpr hdsall]
    exact if_neg (List.cons_ne_nil c ds)

theorem pyInt_formatInt02 (k : Int) : pyInt (formatInt02 k) = some k := by
  by_cases hk : k < 0
  · have hfmt : formatInt02 k = '-' :: natToDigits k.natAbs := by
      simp only [formatInt02, if_pos hk]
    rw [hfmt]
    unfold pyInt
    rw [pyStrip_eq_self (by
      intro x hx
      rcases List.mem_cons.mp hx with rfl | hx
      · decide
      · exact isDigit_not_ws _ (natToDigits_digits _ _ hx))]
    split
    · rename_i ds' heq
      injection heq with h1 _
      exact absurd h1 (by decide)
    · rename_i ds' heq
      injection heq with _ h2
      subst h2
      rw [pyDigits?_all _ (natToDigits_ne_nil _) (natToDigits_digits _),
        natOfDigits_natToDigits]
      show some (-(k.natAbs : Int)) = some k
      congr 1
      omega
    · rename_i h1 h2
      exact (h2 (natToDigits k.natAbs) rfl).elim
  · push_neg at hk
    obtain ⟨c, ds, hcd⟩ : ∃ c ds, formatInt02 k = c :: ds := by
      cases hf : formatInt02 k with
      | nil => exact absurd hf (formatInt02_ne_nil k)
      | cons c ds => exact ⟨c, ds, rfl⟩
    have hdig : ∀ x ∈ c :: ds, x.isDigit = true := by
      rw [← hcd]; exact formatInt02_nonneg_digits k hk
    rw [hcd, pyInt_digits c ds (hdig c (List.mem_cons_self _ _))
      (fun x hx => hdig x (List.mem_cons_of_mem _ hx))]
    rw [← hcd, natOfDigits_formatInt02 k hk]
    congr 1
    omega

theorem pyFloat_formatInt02 (k : Int) (hk : 0 ≤ k) :
    pyFloat (formatInt02 k) = some ((k : ℚ)) := by
  obtain ⟨c, ds, hcd⟩ : ∃ c ds, formatInt02 k = c :: ds := by
    cases hf : formatInt02 k with
    | nil => exact absurd hf (formatInt02_ne_nil k)
    | cons c ds => exact ⟨c, ds, rfl⟩
  have hdig : ∀ x ∈ c :: ds, x.isDigit = true := by
    rw [← hcd]; exact formatInt02_nonneg_digits k hk
  rw [hcd, pyFloat_digits c ds (hdig c (List.mem_cons_self _ _))
    (fun x hx => hdig x (List.mem_cons_of_mem _ hx))]
  rw [← hcd, natOfDigits_formatInt02 k hk]
  congr 1
  have h1 : ((k.natAbs : ℤ)) = k := Int.natAbs_of_nonneg hk
  calc ((k.natAbs : ℚ)) = (((k.natAbs : ℤ)) : ℚ) := (Int.cast_natCast _).symm
    _ = (k : ℚ) := by rw [h1]

theorem splitOnChar_no_sep {sep : Char} {l : List Char} (h : ∀ c ∈ l, c ≠ sep) :
    splitOnChar sep l = [l] := by
  induction l with
  | nil => rfl
  | cons c rest ih =>
    rw [splitOnChar, if_neg (h c (List.mem_cons_self _ _)),
      ih (fun x hx => h x (List.mem_cons_of_mem _ hx))]

theorem splitOnChar_append {sep : Char} (a : List Char) (rest : List Char)
    (h : ∀ c ∈ a, c ≠ sep) :
    splitOnChar sep (a ++ sep :: rest) = a :: splitOnChar sep rest := by
  induction a with
  | nil => simp [splitOnChar]
  | cons c a2 ih =>
    rw [List.cons_append, splitOnChar, if_neg (h c (List.mem_cons_self _ _)),
      ih (fun x hx => h x (List.mem_cons_of_mem _ hx))]

/-! ## C10: timecode round trip -/

theorem pymod_nonneg (a : ℚ) {b : ℚ} (hb : 0 < b) : 0 ≤ pymod a b := by
  unfold pymod
  have h := Int.floor_le (a / b)
  have h2 : b * ((⌊a / b⌋ : ℤ) : ℚ) ≤ a := by
    calc b * ((⌊a / b⌋ : ℤ) : ℚ) ≤ b * (a / b) := by
          exact mul_le_mul_of_nonneg_left h hb.le
      _ = a := by field_simp
  linarith

theorem floor_timecode_sum (s : ℚ) :
    ((⌊s / 3600⌋ : ℤ) : ℚ) * 3600 + ((⌊pymod s 3600 / 60⌋ : ℤ) : ℚ) * 60
      + ((⌊pymod s 60⌋ : ℤ) : ℚ) = ((⌊s⌋ : ℤ) : ℚ) := by
  have h1 : pymod s 3600 / 60 = s / 60 - ((60 * ⌊s / 3600⌋ : ℤ) : ℚ) := by
    unfold pymod; push_cast; ring
  have h2 : pymod s 60 = s - ((60 * ⌊s / 60⌋ : ℤ) : ℚ) := by
    unfold pymod; push_cast; ring
  rw [h1, h2, Int.floor_sub_int, Int.floor_sub_int]
  push_cast
  ring

theorem roundtrip_eq_floor (s : ℚ) :
    timecode_to_seconds (seconds_to_timecode s) = some ((⌊s⌋ : ℤ) : ℚ) := by
  have hsec : (0 : ℤ) ≤ ⌊pymod s 60⌋ := by
    have := pymod_nonneg s (show (0:ℚ) < 60 by norm_num)
    exact Int.floor_nonneg.mpr this
  have hsplit : splitOnChar ':'
      (formatInt02 ⌊s / 3600⌋ ++ ':' ::
        (formatInt02 ⌊pymod s 3600 / 60⌋ ++ ':' :: formatInt02 ⌊pymod s 60⌋))
      = [formatInt02 ⌊s / 3600⌋, formatInt02 ⌊pymod s 3600 / 60⌋,
          formatInt02 ⌊pymod s 60⌋] := by
    rw [splitOnChar_append _ _ (formatInt02_no_colon _),
      splitOnChar_append _ _ (formatInt02_no_colon _),
      splitOnChar_no_sep (formatInt02_no_colon _)]
  unfold seconds_to_timecode timecode_to_seconds
  rw [hsplit]
  show (match pyInt (formatInt02 ⌊s / 3600⌋), pyInt (formatInt02 ⌊pymod s 3600 / 60⌋),
      pyFloat (formatInt02 ⌊pymod s 60⌋) with
    | some hh, some mm, some ss => some ((hh : ℚ) * 3600 + (mm : ℚ) * 60 + ss)
    | _, _, _ => none) = some ((⌊s⌋ : ℤ) : ℚ)
  rw [pyInt_formatInt02, pyInt_formatInt02, pyFloat_formatInt02 _ hsec]
  show some (((⌊s / 3600⌋ : ℤ) : ℚ) * 3600 + ((⌊pymod s 3600 / 60⌋ : ℤ) : ℚ) * 60
      + ((⌊pymod s 60⌋ : ℤ) : ℚ)) = some ((⌊s⌋ : ℤ) : ℚ)
  exact congrArg some (floor_timecode_sum s)

/-- C10: converting non-negative seconds to an `HH:MM:SS` timecode with
`seconds_to_timecode` and parsing it back with `timecode_to_seconds` yields
exactly the integer input, and more generally the floor of the input
(fractional seconds are discarded by the formatter). -/
theorem timecode_roundtrip :
    (∀ n : ℕ, timecode_to_seconds (seconds_to_timecode (n : ℚ)) = some ((n : ℚ)))
    ∧ ∀ s : ℚ, 0 ≤ s →
        timecode_to_seconds (seconds_to_timecode s) = some ((⌊s⌋ : ℤ) : ℚ) := by
  constructor
  · intro n
    rw [roundtrip_eq_floor]
    norm_num
  · intro s _
    exact roundtrip_eq_floor s

/-- Closed instance of C10 at `s = 7/2`, discharging `0 ≤ s`. -/
theorem timecode_roundtrip_witness :
    (0 : ℚ) ≤ 7 / 2
    ∧ timecode_to_seconds (seconds_to_timecode (7 / 2 : ℚ))
        = some ((⌊(7 / 2 : ℚ)⌋ : ℤ) : ℚ) :=
  ⟨by norm_num, timecode_roundtrip.2 (7 / 2) (by norm_num)⟩

/-! ## C2: `format_citation` and `check_citation_presence` -/

theorem formatInt02_no_rb (k : Int) : ∀ c ∈ formatInt02 k, c ≠ ']' := by
  intro c hc
  rcases formatInt02_chars k c hc with h | rfl
  · rintro rfl; exact absurd h (by decide)
  · decide

theorem timecode_no_rb (s : ℚ) : ∀ c ∈ seconds_to_timecode s, c ≠ ']' := by
  intro c hc
  unfold seconds_to_timecode at hc
  simp only [List.mem_append, List.mem_cons] at hc
  rcases hc with h | rfl | h | rfl | h
  · exact formatInt02_no_rb _ _ h
  · decide
  · exact formatInt02_no_rb _ _ h
  · decide
  · exact formatInt02_no_rb _ _ h

theorem afterTag_append (mid rest : List Char) (h : ∀ c ∈ mid, c ≠ ']') :
    afterTag (mid ++ ']' :: rest) = some rest := by
  unfold afterTag
  have hdrop : (mid ++ ']' :: rest).dropWhile (fun c => decide (c ≠ ']')) = ']' :: rest := by
    induction mid with
    | nil =>
      rw [List.nil_append, List.dropWhile_cons]
      simp
    | cons c m ih =>
      rw [List.cons_append, List.dropWhile_cons,
        if_pos (by simp [h c (List.mem_cons_self _ _)])]
      exact ih (fun x hx => h x (List.mem_cons_of_mem _ hx))
  rw [hdrop]
  rfl

theorem findCitationsF_nil (fuel : Nat) : findCitationsF fuel [] = [] := by
  cases fuel <;> rfl

theorem findCitations_single_vid (mid : List Char) (h : ∀ c ∈ mid, c ≠ ']') :
    findCitations ('[' :: 'v' :: 'i' :: 'd' :: (mid ++ [']'])) = ["vid".toList] := by
  unfold findCitations
  have hlen : ('[' :: 'v' :: 'i' :: 'd' :: (mid ++ [']'])).length = (mid.length + 4) + 1 := by
    simp [List.length_append]
  rw [hlen, findCitationsF]
  have hafter : afterTag (mid ++ [']']) = some [] := afterTag_append mid [] h
  show (match afterTag (mid ++ [']']) with
    | some r2 => "vid".toList :: findCitationsF (mid.length + 4) r2
    | none => findCitationsF (mid.length + 4) ('v' :: 'i' :: 'd' :: (mid ++ [']'])))
    = ["vid".toList]
  rw [hafter]
  show "vid".toList :: findCitationsF (mid.length + 4) [] = ["vid".toList]
  rw [findCitationsF_nil]

theorem findCitations_single_slide (mid : List Char) (h : ∀ c ∈ mid, c ≠ ']') :
    findCitations ('[' :: 's' :: 'l' :: 'i' :: 'd' :: 'e' :: (mid ++ [']'])) = ["slide".toList] := by
  unfold findCitations
  have hlen : ('[' :: 's' :: 'l' :: 'i' :: 'd' :: 'e' :: (mid ++ [']'])).length
      = (mid.length + 6) + 1 := by
    simp [List.length_append]
  rw [hlen, findCitationsF]
  have hafter : afterTag (mid ++ [']']) = some [] := afterTag_append mid [] h
  show (match afterTag (mid ++ [']']) with
    | some r2 => "slide".toList :: findCitationsF (mid.length + 6) r2
    | none => findCitationsF (mid.length + 6) ('s' :: 'l' :: 'i' :: 'd' :: 'e' :: (mid ++ [']'])))
    = ["slide".toList]
  rw [hafter]
  show "slide".toList :: findCitationsF (mid.length + 6) [] = ["slide".toList]
  rw [findCitationsF_nil]

theorem findCitations_single_exam (mid : List Char) (h : ∀ c ∈ mid, c ≠ ']') :
    findCitations ('[' :: 'e' :: 'x' :: 'a' :: 'm' :: (mid ++ [']'])) = ["exam".toList] := by
  unfold findCitations
  have hlen : ('[' :: 'e' :: 'x' :: 'a' :: 'm' :: (mid ++ [']'])).length
      = (mid.length + 5) + 1 := by
    simp [List.length_append]
  rw [hlen, findCitationsF]
  have hafter : afterTag (mid ++ [']']) = some [] := afterTag_append mid [] h
  show (match afterTag (mid ++ [']']) with
    | some r2 => "exam".toList :: findCitationsF (mid.length + 5) r2
    | none => findCitationsF (mid.length + 5) ('e' :: 'x' :: 'a' :: 'm' :: (mid ++ [']'])))
    = ["exam".toList]
  rw [hafter]
  show "exam".toList :: findCitationsF (mid.length + 5) [] = ["exam".toList]
  rw [findCitationsF_nil]

theorem check_of_single_vid (content : List Char) (h : findCitations content = ["vid".toList]) :
    check_citation_presence content
      = { total_citations := 1, has_citations := true, video := 1, slides := 0, exam := 0 } := by
  unfold check_citation_presence
  rw [h]
  decide

theorem check_of_single_slide (content : List Char) (h : findCitations content = ["slide".toList]) :
    check_citation_presence content
      = { total_citations := 1, has_citations := true, video := 0, slides := 1, exam := 0 } := by
  unfold check_citation_presence
  rw [h]
  decide

theorem check_of_single_exam (content : List Char) (h : findCitations content = ["exam".toList]) :
    check_citation_presence content
      = { total_citations := 1, has_citations := true, video := 0, slides := 0, exam := 1 } := by
  unfold check_citation_presence
  rw [h]
  decide

/-- Counterexample to C2 as stated: a chunk whose `"source"` is `"exam"` but
whose `"question_id"` value contains `"] ["` followed by a tag word.
`format_citation` yields `"[exam 1] [vid]"`, in which
`check_citation_presence` finds two citations, not one. -/
theorem format_citation_presence_cex :
    (Chunk.getSource
        ⟨some "exam".toList, none, none, none, some "1] [vid".toList, none, 0⟩
      = "exam".toList)
    ∧ ¬ ((check_citation_presence (format_citation
          ⟨some "exam".toList, none, none, none, some "1] [vid".toList, none, 0⟩)).total_citations
            = 1
        ∧ (check_citation_presence (format_citation
          ⟨some "exam".toList, none, none, none, some "1] [vid".toList, none, 0⟩)).exam = 1) := by
  decide

/-- C2 (amended): for chunks with source `transcript`/`asr` the claim holds
unconditionally; for `slides`/`exam` it holds provided the interpolated
`slide_number` / `question_id` string contains no `']'` character (the
counterexample shows it fails otherwise). -/
theorem format_citation_presence_amended (c : Chunk) :
    ((c.getSource = "transcript".toList ∨ c.getSource = "asr".toList) →
        check_citation_presence (format_citation c)
          = { total_citations := 1, has_citations := true, video := 1, slides := 0, exam := 0 })
    ∧ (c.getSource = "slides".toList →
        (∀ x ∈ (c.slide_number.getD "?".toList), x ≠ ']') →
        check_citation_presence (format_citation c)
          = { total_citations := 1, has_citations := true, video := 0, slides := 1, exam := 0 })
    ∧ (c.getSource = "exam".toList →
        (∀ x ∈ (c.question_id.getD "?".toList), x ≠ ']') →
        check_citation_presence (format_citation c)
          = { total_citations := 1, has_citations := true, video := 0, slides := 0, exam := 1 }) := by
  refine ⟨?_, ?_, ?_⟩
  · intro hsrc
    have hfmt : format_citation c =
        (match c.start with
         | some s => '[' :: 'v' :: 'i' :: 'd' :: ' ' :: (seconds_to_timecode s ++ [']'])
         | none => ['[', 'v', 'i', 'd', ']']) := by
      unfold format_citation
      rw [if_pos hsrc]
    cases hs : c.start with
    | none =>
      rw [hfmt, hs]
      apply check_of_single_vid
      exact findCitations_single_vid [] (by intro x hx; simp at hx)
    | some s =>
      rw [hfmt, hs]
      apply check_of_single_vid
      show findCitations
        ('[' :: 'v' :: 'i' :: 'd' :: ((' ' :: seconds_to_timecode s) ++ [']']))
        = ["vid".toList]
      apply findCitations_single_vid
      intro x hx
      rcases List.mem_cons.mp hx with rfl | hx
      · decide
      · exact timecode_no_rb s x hx
  · intro hsrc hno
    have h1 : ¬ (c.getSource = "transcript".toList ∨ c.getSource = "asr".toList) := by
      rw [hsrc]; rintro (h | h) <;> simp at h
    have hfmt : format_citation c
        = '[' :: 's' :: 'l' :: 'i' :: 'd' :: 'e' :: ((' ' :: c.slide_number.getD "?".toList) ++ [']']) := by
      unfold format_citation
      rw [if_neg h1, if_pos hsrc]
      rfl
    rw [hfmt]
    apply check_of_single_slide
    apply findCitations_single_slide
    intro x hx
    rcases List.mem_cons.mp hx with rfl | hx
    · decide
    · exact hno x hx
  · intro hsrc hno
    have h1 : ¬ (c.getSource = "transcript".toList ∨ c.getSource = "asr".toList) := by
      rw [hsrc]; rintro (h | h) <;> simp at h
    have h2 : ¬ c.getSource = "slides".toList := by
      rw [hsrc]; intro h; simp at h
    have hfmt : format_citation c
        = '[' :: 'e' :: 'x' :: 'a' :: 'm' :: ((' ' :: c.question_id.getD "?".toList) ++ [']']) := by
      unfold format_citation
      rw [if_neg h1, if_neg h2, if_pos hsrc]
      rfl
    rw [hfmt]
    apply check_of_single_exam
    apply findCitations_single_exam
    intro x hx
    rcases List.mem_cons.mp hx with rfl | hx
    · decide
    · exact hno x hx

/-- Closed instance of C2 (amended) at concrete chunks, discharging the
source and no-`']'` hypotheses. -/
theorem format_citation_presence_amended_witness :
    check_citation_presence (format_citation
        ⟨some "transcript".toList, none, some 65, none, none, none, 0⟩)
      = ⟨1, true, 1, 0, 0⟩
    ∧ check_citation_presence (format_citation
        ⟨some "exam".toList, none, none, none, some "Q1".toList, none, 0⟩)
      = ⟨1, true, 0, 0, 1⟩ :=
  ⟨(format_citation_presence_amended _).1 (Or.inl (by decide)),
   (format_citation_presence_amended _).2.2 (by decide) (by decide)⟩

/-! ## C8: `check_formula_compilation` and `validate_latex_formula` -/

/-- C8: `passed` is true iff every extracted formula validates; the counts
are consistent (`valid_formulas + |invalid_formulas| = total_formulas`); and
`validate_latex_formula` rejects any formula whose brace, bracket or
parenthesis counts are unbalanced. -/
theorem check_formula_compilation_spec (content : List Char) :
    ((check_formula_compilation content).passed = true ↔
      ∀ f ∈ extract_latex_formulas content, validate_latex_formula f = true)
    ∧ (check_formula_compilation content).valid_formulas
        + (check_formula_compilation content).invalid_formulas.length
        = (check_formula_compilation content).total_formulas
    ∧ ∀ f : List Char,
        (f.count '{' ≠ f.count '}' ∨ f.count '[' ≠ f.count ']'
          ∨ f.count '(' ≠ f.count ')') →
        validate_latex_formula f = false := by
  refine ⟨?_, ?_, ?_⟩
  · unfold check_formula_compilation
    simp only [decide_eq_true_eq, List.length_eq_zero]
    constructor
    · intro hnil f hf
      by_contra hval
      have hvf : (!validate_latex_formula f) = true := by
        cases hv : validate_latex_formula f
        · rfl
        · exact absurd hv hval
      have hmem : f ∈ (extract_latex_formulas content).filter
          (fun f => !validate_latex_formula f) :=
        List.mem_filter.mpr ⟨hf, hvf⟩
      rw [hnil] at hmem
      simp at hmem
    · intro hall
      apply List.filter_eq_nil_iff.mpr
      intro f hf
      rw [hall f hf]
      simp
  · simp only [check_formula_compilation]
    have hle : ((extract_latex_formulas content).filter
        (fun f => !validate_latex_formula f)).length
        ≤ (extract_latex_formulas content).length :=
      List.length_filter_le _ _
    omega
  · intro f h
    unfold validate_latex_formula
    split_ifs with h1 h2 h3 h4 h5
    any_goals rfl
    rcases h with h | h | h
    · exact absurd h h1
    · exact absurd h h2
    · exact absurd h h3

/-- Closed instance of C8's universally quantified part at `"(a"`,
discharging the unbalanced-counts hypothesis. -/
theorem check_formula_compilation_spec_witness :
    (("(a".toList.count '{' ≠ "(a".toList.count '}'
        ∨ "(a".toList.count '[' ≠ "(a".toList.count ']'
        ∨ "(a".toList.count '(' ≠ "(a".toList.count ')'))
    ∧ validate_latex_formula "(a".toList = false :=
  ⟨by decide, (check_formula_compilation_spec []).2.2 "(a".toList (by decide)⟩

/-! ## C4: `split_into_chunks` -/

theorem pySplitWsF_words :
    ∀ fuel l, ∀ w ∈ pySplitWsF fuel l, w ≠ [] ∧ ∀ x ∈ w, isPyWs x = false := by
  intro fuel
  induction fuel with
  | zero => intro l w hw; simp [pySplitWsF] at hw
  | succ fuel ih =>
    intro l w hw
    cases l with
    | nil => simp [pySplitWsF] at hw
    | cons c rest =>
      rw [pySplitWsF] at hw
      split at hw
      · exact ih _ _ hw
      · rcases List.mem_cons.mp hw with rfl | hw
        · refine ⟨List.cons_ne_nil _ _, ?_⟩
          intro x hx
          rcases List.mem_cons.mp hx with rfl | hx
          · rename_i hcws
            cases hxx : isPyWs x
            · rfl
            · exact absurd hxx hcws
          · have := List.mem_takeWhile_imp hx
            simpa using this
        · exact ih _ _ hw

theorem sumLens_append_singleton (cur : List (List Char)) (w : List Char) :
    sumLens (cur ++ [w]) = sumLens cur + (w.length + 1) := by
  simp [sumLens]

theorem sumLens_pos (cur : List (List Char)) (h : cur ≠ []) : 1 ≤ sumLens cur := by
  cases cur with
  | nil => exact absurd rfl h
  | cons w rest => simp [sumLens]; omega

theorem joinWords_length (cur : List (List Char)) (h : cur ≠ []) :
    (joinWords cur).length = sumLens cur - 1 := by
  induction cur with
  | nil => exact absurd rfl h
  | cons w rest ih =>
    cases rest with
    | nil => simp [joinWords, sumLens]
    | cons w2 rest2 =>
      have hne : w2 :: rest2 ≠ [] := List.cons_ne_nil _ _
      have hpos := sumLens_pos _ hne
      have hsum : sumLens (w :: w2 :: rest2) = (w.length + 1) + sumLens (w2 :: rest2) := by
        simp [sumLens]
      show (w ++ ' ' :: joinWords (w2 :: rest2)).length = sumLens (w :: w2 :: rest2) - 1
      rw [List.length_append, List.length_cons, ih hne, hsum]
      omega

theorem emitted_chunk_ok (seg : Segment) (maxS : Nat) (cur : List (List Char))
    (hne : cur ≠ []) (hwords : ∀ w ∈ cur, w ≠ [] ∧ ∀ x ∈ w, isPyWs x = false)
    (hinv : cur.length = 1 ∨ sumLens cur ≤ maxS) :
    (mkSplitChunk seg cur).is_split = true
    ∧ ((mkSplitChunk seg cur).getText.length ≤ maxS ∨ ' ' ∉ (mkSplitChunk seg cur).getText) := by
  refine ⟨rfl, ?_⟩
  have htext : (mkSplitChunk seg cur).getText = joinWords cur := rfl
  rcases hinv with h1 | h2
  · right
    obtain ⟨w, rfl⟩ : ∃ w, cur = [w] := by
      cases cur with
      | nil => simp at h1
      | cons w rest =>
        cases rest with
        | nil => exact ⟨w, rfl⟩
        | cons _ _ => simp at h1
    rw [htext]
    show ' ' ∉ joinWords [w]
    intro hsp
    have := (hwords w (List.mem_singleton_self w)).2 ' ' hsp
    simp [isPyWs] at this
  · left
    rw [htext, joinWords_length cur hne]
    omega

theorem splitLongLoop_spec (seg : Segment) (maxS : Nat) :
    ∀ ws cur curLen,
      curLen = sumLens cur →
      (cur = [] ∨ cur.length = 1 ∨ curLen ≤ maxS) →
      (∀ w ∈ ws, w ≠ [] ∧ ∀ x ∈ w, isPyWs x = false) →
      (∀ w ∈ cur, w ≠ [] ∧ ∀ x ∈ w, isPyWs x = false) →
      ∀ c ∈ splitLongLoop seg maxS ws cur curLen,
        c.is_split = true ∧ (c.getText.length ≤ maxS ∨ ' ' ∉ c.getText) := by
  intro ws
  induction ws with
  | nil =>
    intro cur curLen hsum hinv hws hcur c hc
    unfold splitLongLoop at hc
    split at hc
    · simp at hc
    · rename_i hne
      rcases List.mem_singleton.mp hc with rfl
      refine emitted_chunk_ok seg maxS cur hne hcur ?_
      rcases hinv with h | h | h
      · exact absurd h hne
      · exact Or.inl h
      · exact Or.inr (hsum ▸ h)
  | cons w ws2 ih =>
    intro cur curLen hsum hinv hws hcur c hc
    unfold splitLongLoop at hc
    split at hc
    · rename_i hcond
      rcases List.mem_cons.mp hc with rfl | hc
      · exact emitted_chunk_ok seg maxS cur hcond.2 hcur (by
          rcases hinv with h | h | h
          · exact absurd h hcond.2
          · exact Or.inl h
          · exact Or.inr (hsum ▸ h))
      · refine ih [w] (w.length + 1) (by simp [sumLens]) (Or.inr (Or.inl rfl))
          (fun x hx => hws x (List.mem_cons_of_mem _ hx))
          (fun x hx => by
            rcases List.mem_singleton.mp hx with rfl
            exact hws x (List.mem_cons_self _ _)) c hc
    · rename_i hcond
      refine ih (cur ++ [w]) (curLen + (w.length + 1))
        (by rw [hsum, sumLens_append_singleton]) ?_
        (fun x hx => hws x (List.mem_cons_of_mem _ hx))
        (fun x hx => by
          rcases List.mem_append.mp hx with hx | hx
          · exact hcur x hx
          · rcases List.mem_singleton.mp hx with rfl
            exact hws x (List.mem_cons_self _ _)) c hc
      by_cases hcur0 : cur = []
      · subst hcur0
        exact Or.inr (Or.inl (by simp))
      · right; right
        have : ¬ maxS < curLen + (w.length + 1) := by
          intro hlt
          exact hcond ⟨hlt, hcur0⟩
        omega

/-- Counterexample to C4 as stated: a single segment whose text is one
six-character word, with `max_chunk_size = 5`: the split-generated chunk
keeps the whole word, whose length 6 exceeds the budget. -/
theorem split_into_chunks_cex :
    ¬ ∀ c ∈ split_into_chunks
        [⟨none, none, none, none, some "aaaaaa".toList, none, false, false, 0⟩] 5,
        c.getText.length ≤ 5 := by
  decide

/-- C4 (amended): every chunk produced by `split_into_chunks` either fits in
`max_chunk_size` characters or is a single word (its text contains no
space); a word longer than the budget is emitted as an oversized one-word
chunk, which is what the counterexample exhibits.  Segments that already
fit are returned unchanged, and every produced chunk is either an input
segment or carries `is_split = True`. -/
theorem split_into_chunks_amended (segments : List Segment) (maxS : Nat)
    (_hpos : 0 < maxS) :
    (∀ c ∈ split_into_chunks segments maxS, c.getText.length ≤ maxS ∨ ' ' ∉ c.getText)
    ∧ (∀ s ∈ segments, s.getText.length ≤ maxS → s ∈ split_into_chunks segments maxS)
    ∧ (∀ c ∈ split_into_chunks segments maxS, c ∈ segments ∨ c.is_split = true) := by
  refine ⟨?_, ?_, ?_⟩
  · intro c hc
    obtain ⟨seg, hseg, hc⟩ := List.mem_flatMap.mp hc
    by_cases hlen : seg.getText.length ≤ maxS
    · have : c ∈ [seg] := by
        revert hc
        show c ∈ (if seg.getText.length ≤ maxS then [seg]
          else splitLongLoop seg maxS (pySplitWs seg.getText) [] 0) → c ∈ [seg]
        rw [if_pos hlen]
        exact id
      rcases List.mem_singleton.mp this with rfl
      exact Or.inl hlen
    · have hc2 : c ∈ splitLongLoop seg maxS (pySplitWs seg.getText) [] 0 := by
        revert hc
        show c ∈ (if seg.getText.length ≤ maxS then [seg]
          else splitLongLoop seg maxS (pySplitWs seg.getText) [] 0) →
          c ∈ splitLongLoop seg maxS (pySplitWs seg.getText) [] 0
        rw [if_neg hlen]
        exact id
      exact (splitLongLoop_spec seg maxS (pySplitWs seg.getText) [] 0 rfl (Or.inl rfl)
        (fun w hw => pySplitWsF_words _ _ w hw) (by simp) c hc2).2
  · intro s hs hlen
    apply List.mem_flatMap.mpr
    refine ⟨s, hs, ?_⟩
    show s ∈ (if s.getText.length ≤ maxS then [s]
      else splitLongLoop s maxS (pySplitWs s.getText) [] 0)
    rw [if_pos hlen]
    exact List.mem_singleton_self s
  · intro c hc
    obtain ⟨seg, hseg, hc⟩ := List.mem_flatMap.mp hc
    by_cases hlen : seg.getText.length ≤ maxS
    · have : c ∈ [seg] := by
        revert hc
        show c ∈ (if seg.getText.length ≤ maxS then [seg]
          else splitLongLoop seg maxS (pySplitWs seg.getText) [] 0) → c ∈ [seg]
        rw [if_pos hlen]
        exact id
      rcases List.mem_singleton.mp this with rfl
      exact Or.inl hseg
    · have hc2 : c ∈ splitLongLoop seg maxS (pySplitWs seg.getText) [] 0 := by
        revert hc
        show c ∈ (if seg.getText.length ≤ maxS then [seg]
          else splitLongLoop seg maxS (pySplitWs seg.getText) [] 0) →
          c ∈ splitLongLoop seg maxS (pySplitWs seg.getText) [] 0
        rw [if_neg hlen]
        exact id
      exact Or.inr (splitLongLoop_spec seg maxS (pySplitWs seg.getText) [] 0 rfl
        (Or.inl rfl) (fun w hw => pySplitWsF_words _ _ w hw) (by simp) c hc2).1

/-- Closed instance of C4 (amended) at a concrete input, discharging
`0 < max_chunk_size` and the fits-in-budget hypothesis. -/
theorem split_into_chunks_amended_witness :
    (0 : Nat) < 5
    ∧ (⟨none, none, none, none, some "abc".toList, none, false, false, 0⟩ : Segment)
        ∈ split_into_chunks
            [⟨none, none, none, none, some "abc".toList, none, false, false, 0⟩] 5 :=
  ⟨by decide,
   (split_into_chunks_amended
      [⟨none, none, none, none, some "abc".toList, none, false, false, 0⟩] 5
      (by decide)).2.1 _ (List.mem_singleton_self _) (by decide)⟩

/-! ## C6: `merge_short_segments` -/

theorem prependRun_nil_buf (gs : List (Sum (List Segment) Segment)) :
    prependRun [] gs = gs := by
  unfold prependRun
  rw [if_pos rfl]

theorem prependRun_ne (buf : List Segment) (h : buf ≠ [])
    (gs : List (Sum (List Segment) Segment)) :
    prependRun buf gs
      = (match gs with
         | Sum.inl run :: gs2 => Sum.inl (buf ++ run) :: gs2
         | gs2 => Sum.inl buf :: gs2) := by
  unfold prependRun
  rw [if_neg h]

theorem runGroups_cons_short (min_length : Nat) (s : Segment) (rest : List Segment)
    (h : s.getText.length < min_length) :
    runGroups min_length (s :: rest) = prependRun [s] (runGroups min_length rest) := by
  show (if s.getText.length < min_length then
      match runGroups min_length rest with
      | Sum.inl run :: gs => Sum.inl (s :: run) :: gs
      | gs => Sum.inl [s] :: gs
    else Sum.inr s :: runGroups min_length rest)
    = prependRun [s] (runGroups min_length rest)
  rw [if_pos h, prependRun_ne [s] (List.cons_ne_nil _ _)]
  cases runGroups min_length rest with
  | nil => rfl
  | cons g gs =>
    cases g with
    | inl run => rfl
    | inr t => rfl

theorem runGroups_cons_long (min_length : Nat) (s : Segment) (rest : List Segment)
    (h : ¬ s.getText.length < min_length) :
    runGroups min_length (s :: rest) = Sum.inr s :: runGroups min_length rest := by
  show (if s.getText.length < min_length then
      match runGroups min_length rest with
      | Sum.inl run :: gs => Sum.inl (s :: run) :: gs
      | gs => Sum.inl [s] :: gs
    else Sum.inr s :: runGroups min_length rest)
    = Sum.inr s :: runGroups min_length rest
  rw [if_neg h]

theorem prependRun_prependRun (b1 b2 : List Segment) (h : b2 ≠ [])
    (gs : List (Sum (List Segment) Segment)) :
    prependRun b1 (prependRun b2 gs) = prependRun (b1 ++ b2) gs := by
  by_cases hb1 : b1 = []
  · subst hb1
    rw [prependRun_nil_buf, List.nil_append]
  · have hb12 : b1 ++ b2 ≠ [] := fun hx => hb1 (List.append_eq_nil.mp hx).1
    rw [prependRun_ne b2 h, prependRun_ne (b1 ++ b2) hb12]
    cases gs with
    | nil =>
      rw [prependRun_ne b1 hb1]
    | cons g gs2 =>
      cases g with
      | inl run =>
        rw [prependRun_ne b1 hb1]
        show Sum.inl (b1 ++ (b2 ++ run)) :: gs2 = Sum.inl ((b1 ++ b2) ++ run) :: gs2
        rw [List.append_assoc]
      | inr t =>
        rw [prependRun_ne b1 hb1]

theorem mergeLoop_eq (min_length : Nat) :
    ∀ segs buf, mergeLoop min_length segs buf
      = (prependRun buf (runGroups min_length segs)).map collapseGroup := by
  intro segs
  induction segs with
  | nil =>
    intro buf
    unfold mergeLoop runGroups
    by_cases hb : buf = []
    · subst hb
      rw [prependRun_nil_buf, if_pos rfl]
      rfl
    · rw [if_neg hb, prependRun_ne buf hb]
      rfl
  | cons s rest ih =>
    intro buf
    unfold mergeLoop
    by_cases hs : s.getText.length < min_length
    · rw [if_pos hs, ih (buf ++ [s]), runGroups_cons_short min_length s rest hs,
        prependRun_prependRun buf [s] (List.cons_ne_nil _ _)]
    · rw [if_neg hs, runGroups_cons_long min_length s rest hs, ih []]
      rw [prependRun_nil_buf]
      by_cases hb : buf = []
      · subst hb
        rw [prependRun_nil_buf, if_pos rfl]
        rfl
      · rw [if_neg hb, prependRun_ne buf hb]
        rfl

theorem flattenGroups_prependRun_single (s : Segment)
    (G : List (Sum (List Segment) Segment)) :
    flattenGroups (prependRun [s] G) = s :: flattenGroups G := by
  rw [prependRun_ne [s] (List.cons_ne_nil _ _)]
  cases G with
  | nil => rfl
  | cons g gs =>
    cases g with
    | inl run => rfl
    | inr t => rfl

theorem flattenGroups_runGroups (min_length : Nat) :
    ∀ segs, flattenGroups (runGroups min_length segs) = segs := by
  intro segs
  induction segs with
  | nil => rfl
  | cons s rest ih =>
    by_cases hs : s.getText.length < min_length
    · rw [runGroups_cons_short min_length s rest hs, flattenGroups_prependRun_single, ih]
    · rw [runGroups_cons_long min_length s rest hs]
      show s :: flattenGroups (runGroups min_length rest) = s :: rest
      rw [ih]

theorem runGroups_runs_ne (min_length : Nat) :
    ∀ segs run, Sum.inl run ∈ runGroups min_length segs → run ≠ [] := by
  intro segs
  induction segs with
  | nil => intro run h; simp [runGroups] at h
  | cons s rest ih =>
    intro run hrun
    by_cases hs : s.getText.length < min_length
    · rw [runGroups_cons_short min_length s rest hs,
        prependRun_ne [s] (List.cons_ne_nil _ _)] at hrun
      cases hG : runGroups min_length rest with
      | nil =>
        rw [hG] at hrun
        rcases List.mem_singleton.mp hrun with h
        injection h with h2
        rw [h2]
        exact List.cons_ne_nil _ _
      | cons g gs =>
        rw [hG] at hrun
        cases g with
        | inl run2 =>
          rcases List.mem_cons.mp hrun with h | h
          · injection h with h2
            rw [h2]
            simp
          · exact ih run (hG ▸ List.mem_cons_of_mem _ h)
        | inr t =>
          rcases List.mem_cons.mp hrun with h | h
          · injection h with h2
            rw [h2]
            exact List.cons_ne_nil _ _
          · exact ih run (hG ▸ h)
    · rw [runGroups_cons_long min_length s rest hs] at hrun
      rcases List.mem_cons.mp hrun with h | h
      · exact absurd h (by simp)
      · exact ih run h

theorem joinWords_cons_ne (x : List Char) (l : List (List Char)) (h : l ≠ []) :
    joinWords (x :: l) = x ++ ' ' :: joinWords l := by
  cases l with
  | nil => exact absurd rfl h
  | cons y l2 => rfl

theorem joinWords_append (xs ys : List (List Char)) (hx : xs ≠ []) (hy : ys ≠ []) :
    joinWords (xs ++ ys) = joinWords xs ++ ' ' :: joinWords ys := by
  induction xs with
  | nil => exact absurd rfl hx
  | cons w xs2 ih =>
    cases xs2 with
    | nil =>
      rw [List.singleton_append, joinWords_cons_ne w ys hy]
      rfl
    | cons w2 xs3 =>
      rw [List.cons_append,
        joinWords_cons_ne w ((w2 :: xs3) ++ ys) (by simp),
        joinWords_cons_ne w (w2 :: xs3) (List.cons_ne_nil _ _),
        ih (List.cons_ne_nil _ _)]
      simp [List.append_assoc]

theorem flattenGroups_ne (G : List (Sum (List Segment) Segment)) (hne : G ≠ [])
    (hruns : ∀ run, Sum.inl run ∈ G → run ≠ []) : flattenGroups G ≠ [] := by
  cases G with
  | nil => exact absurd rfl hne
  | cons g gs =>
    cases g with
    | inl run =>
      have := hruns run (List.mem_cons_self _ _)
      show run ++ flattenGroups gs ≠ []
      simp [this]
    | inr t => exact List.cons_ne_nil _ _

theorem mkMerged_getText (buffer : List Segment) :
    (mkMerged buffer).getText = joinTexts buffer := rfl

theorem joinTexts_collapse (G : List (Sum (List Segment) Segment))
    (hruns : ∀ run, Sum.inl run ∈ G → run ≠ []) :
    joinWords ((G.map collapseGroup).map Segment.getText)
      = joinWords ((flattenGroups G).map Segment.getText) := by
  induction G with
  | nil => rfl
  | cons g gs ih =>
    have hruns2 : ∀ run, Sum.inl run ∈ gs → run ≠ [] :=
      fun run h => hruns run (List.mem_cons_of_mem _ h)
    have ih2 := ih hruns2
    cases hgs : gs with
    | nil =>
      subst hgs
      cases g with
      | inl run =>
        have h3 : flattenGroups [Sum.inl run] = run ++ [] := rfl
        have h4 : ([Sum.inl run].map collapseGroup).map Segment.getText
            = [joinWords (run.map Segment.getText)] := rfl
        rw [h3, List.append_nil, h4]
        rfl
      | inr t => rfl
    | cons g2 gs2 =>
      subst hgs
      have hflatne : flattenGroups (g2 :: gs2) ≠ [] :=
        flattenGroups_ne _ (List.cons_ne_nil _ _) hruns2
      cases g with
      | inl run =>
        have hrun : run ≠ [] := hruns run (List.mem_cons_self _ _)
        have hL : ((Sum.inl run :: g2 :: gs2).map collapseGroup).map Segment.getText
            = joinWords (run.map Segment.getText)
              :: ((g2 :: gs2).map collapseGroup).map Segment.getText := rfl
        have hR : (flattenGroups (Sum.inl run :: g2 :: gs2)).map Segment.getText
            = run.map Segment.getText
              ++ (flattenGroups (g2 :: gs2)).map Segment.getText := by
          show (run ++ flattenGroups (g2 :: gs2)).map Segment.getText = _
          exact List.map_append _ _ _
        rw [hL, hR,
          joinWords_cons_ne _ _ (by simp),
          joinWords_append _ _ (by simp [hrun]) (by simp [hflatne]),
          ih2]
      | inr t =>
        have hL : ((Sum.inr t :: g2 :: gs2).map collapseGroup).map Segment.getText
            = t.getText :: ((g2 :: gs2).map collapseGroup).map Segment.getText := rfl
        have hR : (flattenGroups (Sum.inr t :: g2 :: gs2)).map Segment.getText
            = t.getText :: (flattenGroups (g2 :: gs2)).map Segment.getText := rfl
        rw [hL, hR,
          joinWords_cons_ne _ _ (by simp),
          joinWords_cons_ne _ _ (by simp [hflatne]),
          ih2]

theorem mergeLoop_keeps_long (min_length : Nat) :
    ∀ segs buf s, s ∈ segs → ¬ (s.getText.length < min_length) →
      s ∈ mergeLoop min_length segs buf := by
  intro segs
  induction segs with
  | nil => intro buf s hs _; simp at hs
  | cons t rest ih =>
    intro buf s hs hlong
    unfold mergeLoop
    by_cases ht : t.getText.length < min_length
    · rw [if_pos ht]
      rcases List.mem_cons.mp hs with rfl | hs
      · exact absurd ht hlong
      · exact ih _ s hs hlong
    · rw [if_neg ht]
      rcases List.mem_cons.mp hs with rfl | hs
      · exact List.mem_append_right _ (List.mem_cons_self _ _)
      · exact List.mem_append_right _ (List.mem_cons_of_mem _ (ih [] s hs hlong))

/-- C6: `merge_short_segments` replaces every maximal run of consecutive
short segments (text length `< min_length`) by one merged segment — a copy
of the run's first segment whose text is the run's space-joined texts and
whose `is_merged` is `True` — as expressed by equality with the group
decomposition `runGroups`; space-joining the output texts yields the same
string as space-joining the input texts; and every segment of length at
least `min_length` appears unchanged in the output. -/
theorem merge_short_segments_spec (segments : List Segment) (min_length : Nat) :
    merge_short_segments segments min_length
      = (runGroups min_length segments).map collapseGroup
    ∧ joinWords ((merge_short_segments segments min_length).map Segment.getText)
      = joinWords (segments.map Segment.getText)
    ∧ ∀ s ∈ segments, min_length ≤ s.getText.length →
        s ∈ merge_short_segments segments min_length := by
  have h1 : merge_short_segments segments min_length
      = (runGroups min_length segments).map collapseGroup := by
    unfold merge_short_segments
    rw [mergeLoop_eq, prependRun_nil_buf]
  refine ⟨h1, ?_, ?_⟩
  · rw [h1, joinTexts_collapse _ (runGroups_runs_ne min_length segments),
      flattenGroups_runGroups]
  · intro s hs hlen
    exact mergeLoop_keeps_long min_length segments [] s hs (by omega)

/-- Closed instance of C6 at a concrete input, discharging the membership
and length hypotheses. -/
theorem merge_short_segments_spec_witness :
    (⟨none, none, none, none, some "abcdefgh".toList, none, false, false, 0⟩ : Segment)
        ∈ [(⟨none, none, none, none, some "ab".toList, none, false, false, 0⟩ : Segment),
           ⟨none, none, none, none, some "abcdefgh".toList, none, false, false, 0⟩]
    ∧ (5 : Nat)
        ≤ (⟨none, none, none, none, some "abcdefgh".toList, none, false, false, 0⟩ : Segment).getText.length
    ∧ (⟨none, none, none, none, some "abcdefgh".toList, none, false, false, 0⟩ : Segment)
        ∈ merge_short_segments
            [⟨none, none, none, none, some "ab".toList, none, false, false, 0⟩,
             ⟨none, none, none, none, some "abcdefgh".toList, none, false, false, 0⟩] 5 :=
  ⟨by decide, by decide,
   (merge_short_segments_spec
      [⟨none, none, none, none, some "ab".toList, none, false, false, 0⟩,
       ⟨none, none, none, none, some "abcdefgh".toList, none, false, false, 0⟩] 5).2.2
     _ (by decide) (by decide)⟩

/-! ## C9: transcript parsers produce conforming segments -/

theorem parseVttLoop_conform :
    ∀ fuel lines segs, parseVttLoop fuel lines = some segs →
      ∀ s ∈ segs, s.source = some "transcript".toList
        ∧ s.type = some "vtt".toList ∧ s.getText ≠ [] := by
  intro fuel
  induction fuel with
  | zero =>
    intro lines segs h s hs
    injection h with h2
    rw [← h2] at hs
    simp at hs
  | succ fuel ih =>
    intro lines segs h s hs
    cases lines with
    | nil =>
      injection h with h2
      rw [← h2] at hs
      simp at hs
    | cons line rest =>
      simp only [parseVttLoop] at h
      split at h
      · split at h
        · split at h
          · cases hrec : parseVttLoop fuel
                ((rest.dropWhile (fun x => pyStrip x ≠ [])).drop 1) with
            | none => rw [hrec] at h; simp at h
            | some segs2 =>
              rw [hrec] at h
              simp only [Option.map_some'] at h
              injection h with h2
              by_cases htext : joinWords ((rest.takeWhile fun x => pyStrip x ≠ []).map pyStrip) = []
              · rw [if_pos htext] at h2
                rw [← h2] at hs
                exact ih _ segs2 hrec s hs
              · rw [if_neg htext] at h2
                rw [← h2] at hs
                rcases List.mem_cons.mp hs with rfl | hs
                · exact ⟨rfl, rfl, htext⟩
                · exact ih _ segs2 hrec s hs
          · simp at h
        · exact ih rest segs h s hs
      · exact ih rest segs h s hs

theorem parseSrtBlock_conform (block : List Char) (seg : Segment)
    (h : parseSrtBlock block = some (some seg)) :
    seg.source = some "transcript".toList ∧ seg.type = some "srt".toList
      ∧ seg.getText ≠ [] := by
  simp only [parseSrtBlock] at h
  split at h
  · injection h with h2; exact absurd h2.symm (by simp)
  · split at h
    · injection h with h2; exact absurd h2.symm (by simp)
    · split at h
      · rename_i st en _
        by_cases htext : joinWords ((splitOnChar '\n' block).drop 2) = []
        · rw [if_pos htext] at h
          injection h with h2
          exact absurd h2.symm (by simp)
        · rw [if_neg htext] at h
          injection h with h2
          injection h2 with h3
          rw [← h3]
          exact ⟨rfl, rfl, htext⟩
      · simp at h

theorem parseSrtBlocks_conform :
    ∀ blocks segs, parseSrtBlocks blocks = some segs →
      ∀ s ∈ segs, s.source = some "transcript".toList
        ∧ s.type = some "srt".toList ∧ s.getText ≠ [] := by
  intro blocks
  induction blocks with
  | nil =>
    intro segs h s hs
    injection h with h2
    rw [← h2] at hs
    simp at hs
  | cons b bs ih =>
    intro segs h s hs
    unfold parseSrtBlocks at h
    split at h
    · simp at h
    · exact ih segs h s hs
    · rename_i seg2 hblock
      cases hrec : parseSrtBlocks bs with
      | none => rw [hrec] at h; simp at h
      | some segs2 =>
        rw [hrec] at h
        simp only [Option.map_some'] at h
        injection h with h2
        rw [← h2] at hs
        rcases List.mem_cons.mp hs with rfl | hs
        · exact parseSrtBlock_conform b s hblock
        · exact ih segs2 hrec s hs

/-- C9: every segment produced by `parse_vtt`, `parse_srt` and `parse_txt`
(when the parse does not raise) carries `source = "transcript"`, a `type`
naming its input format, and a non-empty text; empty caption blocks and
empty paragraphs are omitted.  The fixed record fields model the common
segment keys. -/
theorem transcript_parsers_conform (content : List Char) :
    (∀ segs, parse_vtt content = some segs →
      ∀ s ∈ segs, s.source = some "transcript".toList
        ∧ s.type = some "vtt".toList ∧ s.getText ≠ [])
    ∧ (∀ segs, parse_srt content = some segs →
      ∀ s ∈ segs, s.source = some "transcript".toList
        ∧ s.type = some "srt".toList ∧ s.getText ≠ [])
    ∧ (∀ s ∈ parse_txt content, s.source = some "transcript".toList
        ∧ s.type = some "txt".toList ∧ s.getText ≠ []) := by
  refine ⟨?_, ?_, ?_⟩
  · intro segs h s hs
    exact parseVttLoop_conform _ _ segs h s hs
  · intro segs h s hs
    exact parseSrtBlocks_conform _ segs h s hs
  · intro s hs
    unfold parse_txt at hs
    obtain ⟨⟨i, p⟩, hmem, heq⟩ := List.mem_map.mp hs
    have hp : p ∈ ((splitDoubleNewline content).map pyStrip).filter (fun p => p ≠ []) := by
      have h2 := List.mem_enum hmem
      rw [h2.2]
      exact List.getElem_mem _
    have hpne : p ≠ [] := by
      have := (List.mem_filter.mp hp).2
      simpa using this
    rw [← heq]
    exact ⟨rfl, rfl, hpne⟩

/-- Closed instance of C9 at a concrete plain-text input, discharging the
membership hypothesis (`parse_txt` is total and involves no timestamp
arithmetic, so the instance evaluates in the kernel). -/
theorem transcript_parsers_conform_witness :
    (mkTranscriptSeg "txt".toList none none "hello".toList (some 0))
        ∈ parse_txt "hello\n\nworld".toList
    ∧ (mkTranscriptSeg "txt".toList none none "hello".toList (some 0)).source
        = some "transcript".toList
    ∧ (mkTranscriptSeg "txt".toList none none "hello".toList (some 0)).type
        = some "txt".toList
    ∧ (mkTranscriptSeg "txt".toList none none "hello".toList (some 0)).getText ≠ [] :=
  ⟨by decide,
   (transcript_parsers_conform "hello\n\nworld".toList).2.2
     (mkTranscriptSeg "txt".toList none none "hello".toList (some 0)) (by decide)⟩

/-! ## C3: `rank_by_source_diversity` -/

theorem keysOf_addVal {α : Type} (m : List (List Char × List α)) (k : List Char) (x : α) :
    keysOf (addVal m k x) = keysOf m := by
  induction m with
  | nil => rfl
  | cons e rest ih =>
    obtain ⟨k0, v⟩ := e
    unfold addVal
    by_cases hk : k0 = k
    · rw [if_pos hk]; rfl
    · rw [if_neg hk]
      show k0 :: keysOf (addVal rest k x) = k0 :: keysOf rest
      rw [ih]

theorem lookupVal_cons {α : Type} (k0 : List Char) (v : List α)
    (m : List (List Char × List α)) (k : List Char) :
    lookupVal ((k0, v) :: m) k = if k0 = k then v else lookupVal m k := by
  unfold lookupVal
  rw [List.find?_cons]
  by_cases hk : k0 = k
  · simp [hk]
  · simp [hk]

theorem lookupVal_not_mem {α : Type} (m : List (List Char × List α)) (k : List Char)
    (h : k ∉ keysOf m) : lookupVal m k = [] := by
  induction m with
  | nil => rfl
  | cons e rest ih =>
    obtain ⟨k0, v⟩ := e
    rw [lookupVal_cons]
    have hk0 : k0 ≠ k := by
      intro hx
      exact h (by rw [hx]; exact List.mem_cons_self _ _)
    rw [if_neg hk0]
    exact ih (fun hx => h (List.mem_cons_of_mem _ hx))

theorem lookupVal_addVal_same {α : Type} (m : List (List Char × List α))
    (k : List Char) (x : α) (h : k ∈ keysOf m) :
    lookupVal (addVal m k x) k = lookupVal m k ++ [x] := by
  induction m with
  | nil => simp [keysOf] at h
  | cons e rest ih =>
    obtain ⟨k0, v⟩ := e
    unfold addVal
    by_cases hk : k0 = k
    · rw [if_pos hk, lookupVal_cons, lookupVal_cons, if_pos hk, if_pos hk]
    · rw [if_neg hk, lookupVal_cons, lookupVal_cons, if_neg hk, if_neg hk]
      exact ih (by
        rcases List.mem_cons.mp h with h2 | h2
        · exact absurd h2.symm hk
        · exact h2)

theorem lookupVal_addVal_other {α : Type} (m : List (List Char × List α))
    (k k' : List Char) (x : α) (h : k' ≠ k) :
    lookupVal (addVal m k x) k' = lookupVal m k' := by
  induction m with
  | nil => rfl
  | cons e rest ih =>
    obtain ⟨k0, v⟩ := e
    unfold addVal
    by_cases hk : k0 = k
    · rw [if_pos hk, lookupVal_cons, lookupVal_cons]
      have : k0 ≠ k' := by rw [hk]; exact fun hx => h hx.symm
      rw [if_neg this, if_neg this]
    · rw [if_neg hk, lookupVal_cons, lookupVal_cons]
      by_cases hk2 : k0 = k'
      · rw [if_pos hk2, if_pos hk2]
      · rw [if_neg hk2, if_neg hk2, ih]

theorem lookupVal_append_other {α : Type} (m : List (List Char × List α))
    (k k' : List Char) (v : List α) (h : k' ≠ k) :
    lookupVal (m ++ [(k, v)]) k' = lookupVal m k' := by
  induction m with
  | nil =>
    rw [List.nil_append, lookupVal_cons, if_neg (fun hx => h hx.symm)]
  | cons e rest ih =>
    obtain ⟨k0, v0⟩ := e
    rw [List.cons_append, lookupVal_cons, lookupVal_cons]
    by_cases hk : k0 = k'
    · rw [if_pos hk, if_pos hk]
    · rw [if_neg hk, if_neg hk, ih]

theorem lookupVal_append_new {α : Type} (m : List (List Char × List α))
    (k : List Char) (v : List α) (h : k ∉ keysOf m) :
    lookupVal (m ++ [(k, v)]) k = v := by
  induction m with
  | nil =>
    rw [List.nil_append, lookupVal_cons, if_pos rfl]
  | cons e rest ih =>
    obtain ⟨k0, v0⟩ := e
    rw [List.cons_append, lookupVal_cons]
    have hk0 : k0 ≠ k := by
      intro hx
      exact h (by rw [hx]; exact List.mem_cons_self _ _)
    rw [if_neg hk0]
    exact ih (fun hx => h (List.mem_cons_of_mem _ hx))

theorem keysOf_append {α : Type} (m : List (List Char × List α)) (e : List Char × List α) :
    keysOf (m ++ [e]) = keysOf m ++ [e.1] := by
  simp [keysOf]

theorem groupStep_lookup (m : List (List Char × List Chunk)) (c : Chunk) (s : List Char) :
    lookupVal (groupStep m c) s
      = lookupVal m s ++ (if c.getSource = s then [c] else []) := by
  unfold groupStep
  by_cases hmem : c.getSource ∈ keysOf m
  · rw [if_pos hmem]
    by_cases hs : c.getSource = s
    · subst hs
      rw [if_pos rfl, lookupVal_addVal_same m c.getSource c hmem]
    · rw [if_neg hs, lookupVal_addVal_other m c.getSource s c (fun hx => hs hx.symm),
        List.append_nil]
  · rw [if_neg hmem]
    by_cases hs : c.getSource = s
    · rw [if_pos hs, ← hs, lookupVal_append_new m c.getSource [c] hmem,
        lookupVal_not_mem m c.getSource hmem, List.nil_append]
    · rw [if_neg hs, lookupVal_append_other m c.getSource s [c] (fun hx => hs hx.symm),
        List.append_nil]

theorem groupStep_keys_nodup (m : List (List Char × List Chunk)) (c : Chunk)
    (h : (keysOf m).Nodup) : (keysOf (groupStep m c)).Nodup := by
  unfold groupStep
  by_cases hmem : c.getSource ∈ keysOf m
  · rw [if_pos hmem, keysOf_addVal]
    exact h
  · rw [if_neg hmem, keysOf_append]
    simp [List.nodup_append, h, hmem]

theorem groupStep_keys_mem (m : List (List Char × List Chunk)) (c : Chunk) (s : List Char) :
    s ∈ keysOf (groupStep m c) ↔ s ∈ keysOf m ∨ s = c.getSource := by
  unfold groupStep
  by_cases hmem : c.getSource ∈ keysOf m
  · rw [if_pos hmem, keysOf_addVal]
    constructor
    · exact Or.inl
    · rintro (h | rfl)
      · exact h
      · exact hmem
  · rw [if_neg hmem, keysOf_append]
    simp

theorem groupFold_lookup (chunks : List Chunk) :
    ∀ m s, lookupVal (chunks.foldl groupStep m) s
      = lookupVal m s ++ chunks.filter (fun c => decide (c.getSource = s)) := by
  induction chunks with
  | nil => intro m s; simp
  | cons c rest ih =>
    intro m s
    rw [List.foldl_cons, ih (groupStep m c) s, groupStep_lookup, List.filter_cons]
    by_cases hs : c.getSource = s
    · rw [if_pos hs, if_pos (by simp [hs])]
      simp
    · rw [if_neg hs, if_neg (by simp [hs])]
      simp

theorem groupFold_keys_nodup (chunks : List Chunk) :
    ∀ m, (keysOf m).Nodup → (keysOf (chunks.foldl groupStep m)).Nodup := by
  induction chunks with
  | nil => intro m h; exact h
  | cons c rest ih =>
    intro m h
    rw [List.foldl_cons]
    exact ih _ (groupStep_keys_nodup m c h)

theorem groupFold_keys_mem (chunks : List Chunk) :
    ∀ m s, s ∈ keysOf (chunks.foldl groupStep m)
      ↔ s ∈ keysOf m ∨ ∃ c ∈ chunks, c.getSource = s := by
  induction chunks with
  | nil => intro m s; simp
  | cons c rest ih =>
    intro m s
    rw [List.foldl_cons, ih (groupStep m c) s, groupStep_keys_mem]
    constructor
    · rintro ((h | rfl) | ⟨c2, hc2, rfl⟩)
      · exact Or.inl h
      · exact Or.inr ⟨c, List.mem_cons_self _ _, rfl⟩
      · exact Or.inr ⟨c2, List.mem_cons_of_mem _ hc2, rfl⟩
    · rintro (h | ⟨c2, hc2, rfl⟩)
      · exact Or.inl (Or.inl h)
      · rcases List.mem_cons.mp hc2 with rfl | hc2
        · exact Or.inl (Or.inr rfl)
        · exact Or.inr ⟨c2, hc2, rfl⟩

theorem groupBySource_lookup (chunks : List Chunk) (s : List Char) :
    lookupVal (groupBySource chunks) s
      = chunks.filter (fun c => decide (c.getSource = s)) := by
  unfold groupBySource
  rw [groupFold_lookup chunks [] s]
  rfl

theorem groupBySource_keys_nodup (chunks : List Chunk) :
    (keysOf (groupBySource chunks)).Nodup :=
  groupFold_keys_nodup chunks [] (by simp [keysOf])

theorem groupBySource_keys_mem (chunks : List Chunk) (s : List Char) :
    s ∈ keysOf (groupBySource chunks) ↔ ∃ c ∈ chunks, c.getSource = s := by
  unfold groupBySource
  rw [groupFold_keys_mem chunks [] s]
  simp [keysOf]

theorem find?_eq_of_mem_nodup (m : List (List Char × List Chunk))
    (hnd : (keysOf m).Nodup) (k : List Char) (l : List Chunk) (hmem : (k, l) ∈ m) :
    m.find? (fun p => decide (p.1 = k)) = some (k, l) := by
  induction m with
  | nil => simp at hmem
  | cons e rest ih =>
    obtain ⟨k0, v0⟩ := e
    rw [List.find?_cons]
    by_cases hk : k0 = k
    · subst hk
      rw [show decide (k0 = k0) = true by simp]
      show some (k0, v0) = some (k0, l)
      rcases List.mem_cons.mp hmem with h | h
      · injection h with _ h2
        rw [h2]
      · exfalso
        have : k0 ∈ keysOf rest := List.mem_map.mpr ⟨(k0, l), h, rfl⟩
        exact (List.nodup_cons.mp hnd).1 this
    · rw [show decide (k0 = k) = false from decide_eq_false hk]
      show List.find? (fun p => decide (p.1 = k)) rest = some (k, l)
      rcases List.mem_cons.mp hmem with h | h
      · exact absurd (congrArg Prod.fst h).symm hk
      · exact ih (List.nodup_cons.mp hnd).2 h

theorem group_entry_values (chunks : List Chunk) (k : List Char) (l : List Chunk)
    (hmem : (k, l) ∈ groupBySource chunks) :
    l = chunks.filter (fun c => decide (c.getSource = k)) := by
  have hfind := find?_eq_of_mem_nodup (groupBySource chunks)
    (groupBySource_keys_nodup chunks) k l hmem
  have : lookupVal (groupBySource chunks) k = l := by
    unfold lookupVal
    rw [hfind]
    rfl
  rw [← this, groupBySource_lookup]

theorem group_entry_sources (chunks : List Chunk) (k : List Char) (l : List Chunk)
    (hmem : (k, l) ∈ groupBySource chunks) : ∀ c ∈ l, c.getSource = k := by
  intro c hc
  rw [group_entry_values chunks k l hmem] at hc
  have := (List.mem_filter.mp hc).2
  simpa using this

theorem foldl_max_le (l : List Nat) :
    ∀ a, a ≤ l.foldl max a ∧ ∀ x ∈ l, x ≤ l.foldl max a := by
  induction l with
  | nil => intro a; exact ⟨le_rfl, by simp⟩
  | cons x xs ih =>
    intro a
    rw [List.foldl_cons]
    obtain ⟨h1, h2⟩ := ih (max a x)
    refine ⟨le_trans (le_max_left a x) h1, ?_⟩
    intro y hy
    rcases List.mem_cons.mp hy with rfl | hy
    · exact le_trans (le_max_right a y) h1
    · exact h2 y hy

theorem maxGroupLen_bound (G : List (List Char × List Chunk)) :
    ∀ p ∈ G, p.2.length ≤ maxGroupLen G := by
  intro p hp
  exact (foldl_max_le _ 0).2 _ (List.mem_map.mpr ⟨p, hp, rfl⟩)

theorem filter_flatMap {α β : Type} (l : List α) (f : α → List β) (p : β → Bool) :
    (l.flatMap f).filter p = l.flatMap (fun x => (f x).filter p) := by
  induction l with
  | nil => rfl
  | cons x xs ih => simp [List.flatMap_cons, List.filter_append, ih]

theorem lookupGroup_some_mem (G : List (List Char × List Chunk)) (s : List Char)
    (l : List Chunk) (h : lookupGroup G s = some l) : (s, l) ∈ G := by
  unfold lookupGroup at h
  cases hf : G.find? (fun p => decide (p.1 = s)) with
  | none => rw [hf] at h; simp at h
  | some e =>
    rw [hf] at h
    simp only [Option.map_some'] at h
    injection h with h2
    obtain ⟨k0, v0⟩ := e
    have hmem := List.mem_of_find?_eq_some hf
    have hfst := List.find?_some hf
    simp only [decide_eq_true_eq] at hfst
    rw [← hfst, ← h2]
    exact hmem

theorem lookupGroup_none_not_key (G : List (List Char × List Chunk)) (s : List Char)
    (h : lookupGroup G s = none) : s ∉ keysOf G := by
  intro hmem
  obtain ⟨e, he, hfst⟩ := List.mem_map.mp hmem
  unfold lookupGroup at h
  cases hf : G.find? (fun p => decide (p.1 = s)) with
  | none =>
    have : (G.find? (fun p => decide (p.1 = s))).isSome := by
      rw [List.find?_isSome]
      exact ⟨e, he, by simp [hfst]⟩
    rw [hf] at this
    simp at this
  | some e2 => rw [hf] at h; simp at h

theorem interleave_source_of_some (chunks : List Chunk) (i : Nat) (s : List Char)
    (c : Chunk) (h : (lookupGroup (groupBySource chunks) s).bind (fun l => l.get? i) = some c) :
    c.getSource = s := by
  cases hg : lookupGroup (groupBySource chunks) s with
  | none => rw [hg] at h; simp at h
  | some l =>
    rw [hg] at h
    simp only [Option.some_bind] at h
    have hcl : c ∈ l := List.get?_mem h
    exact group_entry_sources chunks s l (lookupGroup_some_mem _ _ _ hg) c hcl

theorem filter_filterMap_priority (prio : List (List Char)) (hnd : prio.Nodup)
    (f : List Char → Option Chunk)
    (hsrc : ∀ s c, f s = some c → c.getSource = s) (s₀ : List Char) :
    (prio.filterMap f).filter (fun c => decide (c.getSource = s₀))
      = if s₀ ∈ prio then (f s₀).toList else [] := by
  induction prio with
  | nil => simp
  | cons s ps ih =>
    have hnotin := (List.nodup_cons.mp hnd).1
    have hnd2 := (List.nodup_cons.mp hnd).2
    rw [List.filterMap_cons]
    cases hf : f s with
    | none =>
      show (ps.filterMap f).filter (fun c => decide (c.getSource = s₀))
        = if s₀ ∈ s :: ps then (f s₀).toList else []
      rw [ih hnd2]
      by_cases hs : s₀ = s
      · subst hs
        rw [if_neg hnotin, if_pos (List.mem_cons_self _ _), hf]
        rfl
      · by_cases hps : s₀ ∈ ps
        · rw [if_pos hps, if_pos (List.mem_cons_of_mem _ hps)]
        · rw [if_neg hps, if_neg (by
            intro hx
            rcases List.mem_cons.mp hx with hx | hx
            · exact hs hx
            · exact hps hx)]
    | some c =>
      show ((c :: ps.filterMap f).filter (fun x => decide (x.getSource = s₀)))
        = if s₀ ∈ s :: ps then (f s₀).toList else []
      rw [List.filter_cons]
      have hcs : c.getSource = s := hsrc s c hf
      by_cases hs : s₀ = s
      · subst hs
        rw [if_pos (by simp [hcs]), ih hnd2, if_neg hnotin,
          if_pos (List.mem_cons_self _ _), hf]
        rfl
      · rw [if_neg (by simp [hcs]; exact fun hx => hs hx.symm), ih hnd2]
        by_cases hps : s₀ ∈ ps
        · rw [if_pos hps, if_pos (List.mem_cons_of_mem _ hps)]
        · rw [if_neg hps, if_neg (by
            intro hx
            rcases List.mem_cons.mp hx with hx | hx
            · exact hs hx
            · exact hps hx)]

theorem range_flatMap_get (l : List Chunk) :
    ∀ n, (List.range n).flatMap (fun i => (l.get? i).toList) = l.take n := by
  intro n
  induction n with
  | zero => rfl
  | succ n ih =>
    rw [List.range_succ, List.flatMap_append, ih, List.take_succ]
    simp [List.get?_eq_getElem?]

theorem filter_interleaved (chunks : List Chunk) (prio : List (List Char))
    (hnd : prio.Nodup) (s₀ : List Char) :
    (interleaved (groupBySource chunks) prio (maxGroupLen (groupBySource chunks))).filter
        (fun c => decide (c.getSource = s₀))
      = if s₀ ∈ prio then chunks.filter (fun c => decide (c.getSource = s₀)) else [] := by
  unfold interleaved
  rw [filter_flatMap]
  have hinner : ∀ i : Nat,
      ((prio.filterMap
        (fun s => (lookupGroup (groupBySource chunks) s).bind (fun l => l.get? i))).filter
          (fun c => decide (c.getSource = s₀)))
      = if s₀ ∈ prio
        then ((lookupGroup (groupBySource chunks) s₀).bind (fun l => l.get? i)).toList
        else [] := by
    intro i
    exact filter_filterMap_priority prio hnd _
      (fun s c h => interleave_source_of_some chunks i s c h) s₀
  simp only [hinner]
  by_cases hs₀ : s₀ ∈ prio
  · rw [if_pos hs₀]
    simp only [if_pos hs₀]
    cases hg : lookupGroup (groupBySource chunks) s₀ with
    | none =>
      have hnokey : s₀ ∉ keysOf (groupBySource chunks) :=
        lookupGroup_none_not_key _ _ hg
      have hnone : ∀ c ∈ chunks, c.getSource ≠ s₀ := by
        intro c hc hcs
        exact hnokey ((groupBySource_keys_mem chunks s₀).mpr ⟨c, hc, hcs⟩)
      rw [List.filter_eq_nil_iff.mpr (by
        intro c hc
        simp [hnone c hc])]
      simp [hg]
    | some l =>
      simp only [hg, Option.some_bind]
      rw [range_flatMap_get l (maxGroupLen (groupBySource chunks)),
        List.take_of_length_le
          (maxGroupLen_bound (groupBySource chunks) (s₀, l)
            (lookupGroup_some_mem _ _ _ hg))]
      show l = chunks.filter (fun c => decide (c.getSource = s₀))
      exact group_entry_values chunks s₀ l (lookupGroup_some_mem _ _ _ hg)
  · rw [if_neg hs₀]
    simp [hs₀]

theorem filter_leftovers_gen (prio : List (List Char)) (s₀ : List Char) (hs₀ : s₀ ∉ prio) :
    ∀ G : List (List Char × List Chunk), (keysOf G).Nodup →
      (∀ k l, (k, l) ∈ G → ∀ c ∈ l, c.getSource = k) →
      (leftovers G prio).filter (fun c => decide (c.getSource = s₀)) = lookupVal G s₀ := by
  intro G
  induction G with
  | nil => intro _ _; rfl
  | cons e G2 ih =>
    intro hnd hvals
    obtain ⟨k, l⟩ := e
    have hnd2 : (keysOf G2).Nodup := (List.nodup_cons.mp hnd).2
    have hknotin : k ∉ keysOf G2 := (List.nodup_cons.mp hnd).1
    have hvals2 : ∀ k2 l2, (k2, l2) ∈ G2 → ∀ c ∈ l2, c.getSource = k2 :=
      fun k2 l2 hm => hvals k2 l2 (List.mem_cons_of_mem _ hm)
    have hvalshead : ∀ c ∈ l, c.getSource = k := hvals k l (List.mem_cons_self _ _)
    unfold leftovers
    rw [List.filter_cons]
    by_cases hkp : k ∈ prio
    · rw [if_neg (by simp [hkp])]
      rw [lookupVal_cons, if_neg (fun hx => hs₀ (by rw [← hx]; exact hkp))]
      exact ih hnd2 hvals2
    · rw [if_pos (by simp [hkp])]
      rw [List.flatMap_cons, List.filter_append, lookupVal_cons]
      by_cases hks : k = s₀
      · subst hks
        rw [if_pos rfl]
        have h1 : l.filter (fun c => decide (c.getSource = k)) = l :=
          List.filter_eq_self.mpr (by intro a ha; simp [hvalshead a ha])
        have h2 : (leftovers G2 prio).filter (fun c => decide (c.getSource = k))
            = lookupVal G2 k := ih hnd2 hvals2
        show l.filter (fun c => decide (c.getSource = k))
            ++ (leftovers G2 prio).filter (fun c => decide (c.getSource = k)) = l
        rw [h1, h2, lookupVal_not_mem G2 k hknotin, List.append_nil]
      · rw [if_neg hks]
        have h1 : l.filter (fun c => decide (c.getSource = s₀)) = [] :=
          List.filter_eq_nil_iff.mpr (by
            intro a ha
            simp only [hvalshead a ha, decide_eq_true_eq]
            exact hks)
        show l.filter (fun c => decide (c.getSource = s₀))
            ++ (leftovers G2 prio).filter (fun c => decide (c.getSource = s₀))
            = lookupVal G2 s₀
        rw [h1, List.nil_append]
        exact ih hnd2 hvals2

theorem filter_leftovers_nonprio (chunks : List Chunk) (prio : List (List Char))
    (s₀ : List Char) (hs₀ : s₀ ∉ prio) :
    (leftovers (groupBySource chunks) prio).filter (fun c => decide (c.getSource = s₀))
      = chunks.filter (fun c => decide (c.getSource = s₀)) := by
  rw [filter_leftovers_gen prio s₀ hs₀ (groupBySource chunks)
    (groupBySource_keys_nodup chunks)
    (fun k l hm => group_entry_sources chunks k l hm), groupBySource_lookup]

theorem filter_leftovers_prio (chunks : List Chunk) (prio : List (List Char))
    (s₀ : List Char) (hs₀ : s₀ ∈ prio) :
    (leftovers (groupBySource chunks) prio).filter (fun c => decide (c.getSource = s₀))
      = [] := by
  apply List.filter_eq_nil_iff.mpr
  intro c hc
  obtain ⟨entry, hentry, hcl⟩ := List.mem_flatMap.mp hc
  have hkept := List.mem_filter.mp hentry
  obtain ⟨k, l⟩ := entry
  have hknp : k ∉ prio := by simpa using hkept.2
  have hsrc := group_entry_sources chunks k l hkept.1 c hcl
  simp only [decide_eq_true_eq]
  intro hcs
  rw [hsrc] at hcs
  exact hknp (hcs ▸ hs₀)

theorem mem_interleaved_prio (chunks : List Chunk) (prio : List (List Char))
    (max_len : Nat) (c : Chunk)
    (hc : c ∈ interleaved (groupBySource chunks) prio max_len) :
    c.getSource ∈ prio := by
  unfold interleaved at hc
  obtain ⟨i, _, hc⟩ := List.mem_flatMap.mp hc
  obtain ⟨s, hs, hf⟩ := List.mem_filterMap.mp hc
  rw [interleave_source_of_some chunks i s c hf]
  exact hs

theorem mem_leftovers_nonprio (chunks : List Chunk) (prio : List (List Char))
    (c : Chunk) (hc : c ∈ leftovers (groupBySource chunks) prio) :
    c.getSource ∉ prio := by
  unfold leftovers at hc
  obtain ⟨entry, hentry, hcl⟩ := List.mem_flatMap.mp hc
  have hkept := List.mem_filter.mp hentry
  obtain ⟨k, l⟩ := entry
  have hknp : k ∉ prio := by simpa using hkept.2
  rw [group_entry_sources chunks k l hkept.1 c hcl]
  exact hknp

theorem sourcePriority_nodup (pe : Bool) : (sourcePriority pe).Nodup := by
  cases pe <;> decide

theorem sourcePriority_mem_iff (pe : Bool) (s : List Char) :
    s ∈ sourcePriority pe ↔ s ∈ sourcePriority true := by
  cases pe
  · show s ∈ ["slides".toList, "transcript".toList, "exam".toList, "asr".toList]
      ↔ s ∈ ["exam".toList, "slides".toList, "transcript".toList, "asr".toList]
    simp only [List.mem_cons, List.not_mem_nil, or_false]
    tauto
  · exact Iff.rfl

/-- C3: `rank_by_source_diversity` returns a permutation of its input;
chunks sharing the same source keep their original relative order (the
source-filtered output equals the source-filtered input); and every chunk
whose source lies outside the priority list `["exam", "slides",
"transcript", "asr"]` appears after all chunks from prioritized sources. -/
theorem rank_by_source_diversity_spec (chunks : List Chunk) (prefer_exam : Bool) :
    (rank_by_source_diversity chunks prefer_exam).Perm chunks
    ∧ (∀ s, (rank_by_source_diversity chunks prefer_exam).filter
          (fun c => decide (c.getSource = s))
        = chunks.filter (fun c => decide (c.getSource = s)))
    ∧ ∀ i j, i < (rank_by_source_diversity chunks prefer_exam).length →
        j < (rank_by_source_diversity chunks prefer_exam).length →
        ((rank_by_source_diversity chunks prefer_exam).getD i default).getSource
          ∉ sourcePriority true →
        ((rank_by_source_diversity chunks prefer_exam).getD j default).getSource
          ∈ sourcePriority true →
        j < i := by
  cases chunks with
  | nil =>
    refine ⟨List.Perm.refl _, fun s => rfl, ?_⟩
    intro i j hi _ _ _
    simp [rank_by_source_diversity] at hi
  | cons c0 rest =>
    have hout : rank_by_source_diversity (c0 :: rest) prefer_exam
        = interleaved (groupBySource (c0 :: rest)) (sourcePriority prefer_exam)
            (maxGroupLen (groupBySource (c0 :: rest)))
          ++ leftovers (groupBySource (c0 :: rest)) (sourcePriority prefer_exam) := rfl
    have hfilters : ∀ s, (rank_by_source_diversity (c0 :: rest) prefer_exam).filter
          (fun c => decide (c.getSource = s))
        = (c0 :: rest).filter (fun c => decide (c.getSource = s)) := by
      intro s
      rw [hout, List.filter_append,
        filter_interleaved (c0 :: rest) (sourcePriority prefer_exam)
          (sourcePriority_nodup prefer_exam) s]
      by_cases hs : s ∈ sourcePriority prefer_exam
      · rw [if_pos hs, filter_leftovers_prio (c0 :: rest) _ s hs, List.append_nil]
      · rw [if_neg hs, filter_leftovers_nonprio (c0 :: rest) _ s hs, List.nil_append]
    refine ⟨?_, hfilters, ?_⟩
    · apply List.perm_iff_count.mpr
      intro a
      calc List.count a (rank_by_source_diversity (c0 :: rest) prefer_exam)
          = List.count a ((rank_by_source_diversity (c0 :: rest) prefer_exam).filter
              (fun c => decide (c.getSource = a.getSource))) :=
            (@List.count_filter Chunk _ _ (fun c => decide (c.getSource = a.getSource)) a
              (rank_by_source_diversity (c0 :: rest) prefer_exam) (by simp)).symm
        _ = List.count a ((c0 :: rest).filter
              (fun c => decide (c.getSource = a.getSource))) := by
              rw [hfilters a.getSource]
        _ = List.count a (c0 :: rest) :=
            @List.count_filter Chunk _ _ (fun c => decide (c.getSource = a.getSource)) a
              (c0 :: rest) (by simp)
    · intro i j hi hj hni hpj
      rw [hout] at hi hj hni hpj
      set inter := interleaved (groupBySource (c0 :: rest)) (sourcePriority prefer_exam)
        (maxGroupLen (groupBySource (c0 :: rest))) with hinter
      set rest2 := leftovers (groupBySource (c0 :: rest)) (sourcePriority prefer_exam)
        with hrest2
      have hIi : ¬ i < inter.length := by
        intro hlt
        have hgi : (inter ++ rest2).getD i default = inter[i] := by
          rw [List.getD_eq_getElem _ _ hi]
          exact List.getElem_append_left hlt
        have hmemi : inter[i] ∈ inter := List.getElem_mem hlt
        have := mem_interleaved_prio (c0 :: rest) (sourcePriority prefer_exam) _ _ hmemi
        rw [hgi] at hni
        exact hni ((sourcePriority_mem_iff prefer_exam _).mp this)
      have hJj : j < inter.length := by
        by_contra hge
        push_neg at hge
        have hbound : j - inter.length < rest2.length := by
          rw [List.length_append] at hj
          omega
        have hgj : (inter ++ rest2).getD j default = rest2[j - inter.length] := by
          rw [List.getD_eq_getElem _ _ hj]
          exact List.getElem_append_right hge
        have hmemj : rest2[j - inter.length] ∈ rest2 := List.getElem_mem hbound
        have := mem_leftovers_nonprio (c0 :: rest) (sourcePriority prefer_exam) _ hmemj
        rw [hgj] at hpj
        exact this ((sourcePriority_mem_iff prefer_exam _).mpr hpj)
      omega

/-- Closed instance of C3 at concrete chunks, discharging the index-bound
and priority-membership hypotheses of the ordering part. -/
theorem rank_by_source_diversity_spec_witness :
    (0 : Nat) < (rank_by_source_diversity
        [⟨some "foo".toList, none, none, none, none, none, 0⟩,
         ⟨some "exam".toList, none, none, none, none, none, 1⟩] true).length
    ∧ (1 : Nat) < (rank_by_source_diversity
        [⟨some "foo".toList, none, none, none, none, none, 0⟩,
         ⟨some "exam".toList, none, none, none, none, none, 1⟩] true).length
    ∧ (0 : Nat) < 1 :=
  ⟨by decide, by decide,
   (rank_by_source_diversity_spec
      [⟨some "foo".toList, none, none, none, none, none, 0⟩,
       ⟨some "exam".toList, none, none, none, none, none, 1⟩] true).2.2 1 0
     (by decide) (by decide) (by decide) (by decide)⟩

/-! ## C1: `map_chunks_to_topics` -/

theorem initFold_eq :
    ∀ (ts : List Topic) (m : List (List Char × List Nat)),
      (∀ t ∈ ts, t.id ∉ keysOf m) → (ts.map Topic.id).Nodup →
      ts.foldl initStep m = m ++ ts.map (fun t => (t.id, [])) := by
  intro ts
  induction ts with
  | nil => intro m _ _; simp
  | cons t ts2 ih =>
    intro m hnotin hnd
    rw [List.foldl_cons]
    have hstep : initStep m t = m ++ [(t.id, [])] := by
      unfold initStep
      rw [if_neg (hnotin t (List.mem_cons_self _ _))]
    rw [hstep, ih (m ++ [(t.id, [])]) ?_ (List.nodup_cons.mp hnd).2]
    · rw [List.append_assoc]
      rfl
    · intro t2 ht2
      rw [keysOf_append]
      simp only [List.mem_append, List.mem_singleton]
      rintro (h | h)
      · exact hnotin t2 (List.mem_cons_of_mem _ ht2) h
      · have : t2.id ∈ ts2.map Topic.id := List.mem_map.mpr ⟨t2, ht2, rfl⟩
        rw [h] at this
        exact (List.nodup_cons.mp hnd).1 this

theorem initMapping_eq (topics : List Topic) (hnd : (topics.map Topic.id).Nodup) :
    initMapping topics = topics.map (fun t => (t.id, [])) := by
  unfold initMapping
  rw [initFold_eq topics [] (by simp [keysOf]) hnd]
  rfl

theorem keysOf_initMapping (topics : List Topic) (hnd : (topics.map Topic.id).Nodup) :
    keysOf (initMapping topics) = topics.map Topic.id := by
  rw [initMapping_eq topics hnd]
  simp [keysOf]

theorem idAt_inj (topics : List Topic) (hnd : (topics.map Topic.id).Nodup)
    (i j : Nat) (hi : i < topics.length) (hj : j < topics.length)
    (h : idAt topics i = idAt topics j) : i = j := by
  have hi2 : i < (topics.map Topic.id).length := by simpa using hi
  have hj2 : j < (topics.map Topic.id).length := by simpa using hj
  have e1 : idAt topics i = (topics.map Topic.id)[i] := by
    rw [List.getElem_map]
    unfold idAt
    rw [List.getD_eq_getElem _ _ hi]
  have e2 : idAt topics j = (topics.map Topic.id)[j] := by
    rw [List.getElem_map]
    unfold idAt
    rw [List.getD_eq_getElem _ _ hj]
  rw [e1, e2] at h
  exact (List.Nodup.getElem_inj_iff hnd).mp h

theorem assignRow_keys (topics : List Topic) (θ : ℚ) (ci : Nat) :
    ∀ rs ti m, keysOf (assignRow topics θ ci rs ti m) = keysOf m := by
  intro rs
  induction rs with
  | nil => intro ti m; rfl
  | cons sc rs2 ih =>
    intro ti m
    show keysOf (assignRow topics θ ci rs2 (ti + 1)
      (if θ ≤ sc then addVal m (idAt topics ti) ci else m)) = keysOf m
    rw [ih]
    by_cases hsc : θ ≤ sc
    · rw [if_pos hsc, keysOf_addVal]
    · rw [if_neg hsc]

theorem assignAll_keys (topics : List Topic) (θ : ℚ) :
    ∀ rows ci m, keysOf (assignAll topics θ rows ci m) = keysOf m := by
  intro rows
  induction rows with
  | nil => intro ci m; rfl
  | cons r rows2 ih =>
    intro ci m
    show keysOf (assignAll topics θ rows2 (ci + 1) (assignRow topics θ ci r 0 m))
      = keysOf m
    rw [ih, assignRow_keys]

theorem assignRow_lookup (topics : List Topic) (θ : ℚ) (ci : Nat) (tj : Nat)
    (htj : tj < topics.length) (hnd : (topics.map Topic.id).Nodup) :
    ∀ rs ti m, ti + rs.length = topics.length → idAt topics tj ∈ keysOf m →
      lookupVal (assignRow topics θ ci rs ti m) (idAt topics tj)
        = lookupVal m (idAt topics tj)
          ++ (if ti ≤ tj ∧ tj < ti + rs.length ∧ θ ≤ rs.getD (tj - ti) 0
              then [ci] else []) := by
  intro rs
  induction rs with
  | nil =>
    intro ti m hlen hkey
    rw [if_neg (by
      rintro ⟨h1, h2, _⟩
      simp only [List.length_nil] at h2
      omega)]
    simp [assignRow]
  | cons sc rs2 ih =>
    intro ti m hlen hkey
    have hti : ti < topics.length := by
      simp only [List.length_cons] at hlen
      omega
    show lookupVal (assignRow topics θ ci rs2 (ti + 1)
        (if θ ≤ sc then addVal m (idAt topics ti) ci else m)) (idAt topics tj)
      = _
    by_cases hEq : ti = tj
    · subst hEq
      have hcondtail : ¬ (ti + 1 ≤ ti ∧ ti < (ti + 1) + rs2.length
          ∧ θ ≤ rs2.getD (ti - (ti + 1)) 0) := by
        rintro ⟨h1, _, _⟩
        omega
      by_cases hsc : θ ≤ sc
      · rw [if_pos hsc,
          ih (ti + 1) (addVal m (idAt topics ti) ci)
            (by simp only [List.length_cons] at hlen; omega)
            (by rw [keysOf_addVal]; exact hkey),
          if_neg hcondtail,
          lookupVal_addVal_same m (idAt topics ti) ci hkey,
          if_pos ⟨le_rfl, by simp only [List.length_cons]; omega,
            by simpa using hsc⟩]
        simp
      · rw [if_neg hsc,
          ih (ti + 1) m (by simp only [List.length_cons] at hlen; omega) hkey,
          if_neg hcondtail,
          if_neg (by
            rintro ⟨_, _, h3⟩
            rw [Nat.sub_self, List.getD_cons_zero] at h3
            exact hsc h3)]
    · have hne : idAt topics tj ≠ idAt topics ti := by
        intro hx
        exact hEq (idAt_inj topics hnd tj ti htj hti hx).symm
      have hm2key : idAt topics tj ∈ keysOf
          (if θ ≤ sc then addVal m (idAt topics ti) ci else m) := by
        by_cases hsc : θ ≤ sc
        · rw [if_pos hsc, keysOf_addVal]; exact hkey
        · rw [if_neg hsc]; exact hkey
      have hm2 : lookupVal (if θ ≤ sc then addVal m (idAt topics ti) ci else m)
          (idAt topics tj) = lookupVal m (idAt topics tj) := by
        by_cases hsc : θ ≤ sc
        · rw [if_pos hsc, lookupVal_addVal_other m (idAt topics ti) (idAt topics tj) ci hne]
        · rw [if_neg hsc]
      rw [ih (ti + 1) _ (by simp only [List.length_cons] at hlen; omega) hm2key, hm2]
      congr 1
      rcases Nat.lt_or_ge tj ti with hlt | hge
      · rw [if_neg (by rintro ⟨h1, _, _⟩; omega),
          if_neg (by rintro ⟨h1, _, _⟩; omega)]
      · have hgt : ti + 1 ≤ tj := by omega
        have hgd : (sc :: rs2).getD (tj - ti) 0 = rs2.getD (tj - (ti + 1)) 0 := by
          have h2 : tj - ti = (tj - (ti + 1)) + 1 := by omega
          rw [h2, List.getD_cons_succ]
        exact if_congr (by
          constructor
          · rintro ⟨_, h2, h3⟩
            exact ⟨by omega, by simp only [List.length_cons]; omega,
              by rw [hgd]; exact h3⟩
          · rintro ⟨_, h2, h3⟩
            rw [hgd] at h3
            exact ⟨hgt, by simp only [List.length_cons] at h2; omega, h3⟩) rfl rfl

theorem assignAll_lookup (topics : List Topic) (θ : ℚ) (tj : Nat)
    (htj : tj < topics.length) (hnd : (topics.map Topic.id).Nodup) :
    ∀ rows ci m, (∀ r ∈ rows, r.length = topics.length) →
      idAt topics tj ∈ keysOf m →
      lookupVal (assignAll topics θ rows ci m) (idAt topics tj)
        = lookupVal m (idAt topics tj) ++ hitsFor θ tj rows ci := by
  intro rows
  induction rows with
  | nil =>
    intro ci m _ _
    simp [assignAll, hitsFor]
  | cons r rows2 ih =>
    intro ci m hshape hkey
    show lookupVal (assignAll topics θ rows2 (ci + 1) (assignRow topics θ ci r 0 m))
        (idAt topics tj) = _
    have hr : r.length = topics.length := hshape r (List.mem_cons_self _ _)
    rw [ih (ci + 1) _ (fun r2 h2 => hshape r2 (List.mem_cons_of_mem _ h2))
        (by rw [assignRow_keys]; exact hkey),
      assignRow_lookup topics θ ci tj htj hnd r 0 m (by omega) hkey]
    have hif : (if 0 ≤ tj ∧ tj < 0 + r.length ∧ θ ≤ r.getD (tj - 0) 0
          then [ci] else ([] : List Nat))
        = if θ ≤ r.getD tj 0 then [ci] else [] :=
      if_congr (by
        constructor
        · rintro ⟨_, _, h3⟩
          simpa using h3
        · intro h3
          exact ⟨Nat.zero_le _, by omega, by simpa using h3⟩) rfl rfl
    rw [hif]
    show (lookupVal m (idAt topics tj) ++ if θ ≤ r.getD tj 0 then [ci] else [])
        ++ hitsFor θ tj rows2 (ci + 1)
      = lookupVal m (idAt topics tj)
        ++ ((if θ ≤ r.getD tj 0 then [ci] else []) ++ hitsFor θ tj rows2 (ci + 1))
    rw [List.append_assoc]

theorem mem_hitsFor (θ : ℚ) (tj : Nat) :
    ∀ rows c i, i ∈ hitsFor θ tj rows c
      ↔ ∃ d, d < rows.length ∧ i = c + d ∧ θ ≤ (rows.getD d []).getD tj 0 := by
  intro rows
  induction rows with
  | nil =>
    intro c i
    simp [hitsFor]
  | cons r rows2 ih =>
    intro c i
    show i ∈ (if θ ≤ r.getD tj 0 then [c] else []) ++ hitsFor θ tj rows2 (c + 1) ↔ _
    rw [List.mem_append, ih (c + 1) i]
    constructor
    · rintro (hmem | ⟨d, hd, rfl, hcond⟩)
      · by_cases hsc : θ ≤ r.getD tj 0
        · rw [if_pos hsc] at hmem
          rcases List.mem_singleton.mp hmem with rfl
          exact ⟨0, by simp, by omega, by simpa using hsc⟩
        · rw [if_neg hsc] at hmem
          simp at hmem
      · refine ⟨d + 1, by simp only [List.length_cons]; omega, by omega, ?_⟩
        rw [List.getD_cons_succ]
        exact hcond
    · rintro ⟨d, hd, rfl, hcond⟩
      cases d with
      | zero =>
        left
        rw [List.getD_cons_zero] at hcond
        rw [if_pos hcond]
        simp
      | succ d2 =>
        right
        refine ⟨d2, by simp only [List.length_cons] at hd; omega, by omega, ?_⟩
        rw [List.getD_cons_succ] at hcond
        exact hcond

theorem hitsFor_lb (θ : ℚ) (tj : Nat) :
    ∀ rows c, ∀ i ∈ hitsFor θ tj rows c, c ≤ i := by
  intro rows
  induction rows with
  | nil => intro c i hi; simp [hitsFor] at hi
  | cons r rows2 ih =>
    intro c i hi
    rcases List.mem_append.mp hi with hmem | hmem
    · by_cases hsc : θ ≤ r.getD tj 0
      · rw [if_pos hsc] at hmem
        rcases List.mem_singleton.mp hmem with rfl
        exact le_rfl
      · rw [if_neg hsc] at hmem
        simp at hmem
    · have := ih (c + 1) i hmem
      omega

theorem hitsFor_sorted (θ : ℚ) (tj : Nat) :
    ∀ rows c, List.Pairwise (· < ·) (hitsFor θ tj rows c) := by
  intro rows
  induction rows with
  | nil => intro c; simp [hitsFor]
  | cons r rows2 ih =>
    intro c
    show List.Pairwise (· < ·)
      ((if θ ≤ r.getD tj 0 then [c] else []) ++ hitsFor θ tj rows2 (c + 1))
    by_cases hsc : θ ≤ r.getD tj 0
    · rw [if_pos hsc, List.singleton_append]
      refine List.Pairwise.cons ?_ (ih (c + 1))
      intro b hb
      have := hitsFor_lb θ tj rows2 (c + 1) b hb
      omega
    · rw [if_neg hsc, List.nil_append]
      exact ih (c + 1)

theorem lookupVal_all_nil (m : List (List Char × List Nat)) (k : List Char)
    (h : ∀ p ∈ m, p.2 = ([] : List Nat)) : lookupVal m k = [] := by
  unfold lookupVal
  cases hf : m.find? (fun p => decide (p.1 = k)) with
  | none => rfl
  | some e =>
    simp only [Option.map_some']
    exact h e (List.mem_of_find?_eq_some hf)

/-- C1: for pairwise-distinct topic ids and a similarity matrix whose rows
match the topic count, `map_chunks_to_topics` has exactly one key per
topic (the topic ids, in order), chunk index `i` belongs to topic `tj`'s
list iff the similarity of chunk `i` and topic `tj` is at least the
threshold, and each topic's list is strictly increasing.  The sklearn
`cosine_similarity` call is third-party code and is abstracted as the
`similarities` matrix. -/
theorem map_chunks_to_topics_spec (topics : List Topic) (sims : List (List ℚ)) (θ : ℚ)
    (hnd : (topics.map Topic.id).Nodup)
    (hshape : ∀ row ∈ sims, row.length = topics.length) :
    keysOf (map_chunks_to_topics topics sims θ) = topics.map Topic.id
    ∧ ∀ tj, tj < topics.length →
        List.Pairwise (· < ·)
          (lookupVal (map_chunks_to_topics topics sims θ) (idAt topics tj))
        ∧ ∀ i, i ∈ lookupVal (map_chunks_to_topics topics sims θ) (idAt topics tj)
            ↔ (i < sims.length ∧ θ ≤ (sims.getD i []).getD tj 0) := by
  have hkeys_init : keysOf (initMapping topics) = topics.map Topic.id :=
    keysOf_initMapping topics hnd
  constructor
  · unfold map_chunks_to_topics
    rw [assignAll_keys, hkeys_init]
  · intro tj htj
    have hkey : idAt topics tj ∈ keysOf (initMapping topics) := by
      rw [hkeys_init]
      have : idAt topics tj = topics[tj].id := by
        unfold idAt
        rw [List.getD_eq_getElem _ _ htj]
      rw [this]
      exact List.mem_map.mpr ⟨topics[tj], List.getElem_mem htj, rfl⟩
    have hinitnil : lookupVal (initMapping topics) (idAt topics tj) = [] := by
      apply lookupVal_all_nil
      intro p hp
      rw [initMapping_eq topics hnd] at hp
      obtain ⟨t, _, rfl⟩ := List.mem_map.mp hp
      rfl
    have hlook : lookupVal (map_chunks_to_topics topics sims θ) (idAt topics tj)
        = hitsFor θ tj sims 0 := by
      unfold map_chunks_to_topics
      rw [assignAll_lookup topics θ tj htj hnd sims 0 (initMapping topics) hshape hkey,
        hinitnil, List.nil_append]
    constructor
    · rw [hlook]
      exact hitsFor_sorted θ tj sims 0
    · intro i
      rw [hlook, mem_hitsFor θ tj sims 0 i]
      constructor
      · rintro ⟨d, hd, rfl, hcond⟩
        exact ⟨by omega, by simpa using hcond⟩
      · rintro ⟨hi, hcond⟩
        exact ⟨i, hi, by omega, hcond⟩

/-- Closed instance of C1 at concrete topics and similarity matrix,
discharging the distinct-ids, shape and index-bound hypotheses. -/
theorem map_chunks_to_topics_spec_witness :
    ((([⟨"t1".toList, "T1".toList, none⟩, ⟨"t2".toList, "T2".toList, none⟩] : List Topic).map
        Topic.id).Nodup
    ∧ (∀ row ∈ [[(1 : ℚ), 0], [0, 1]],
        List.length row
          = ([⟨"t1".toList, "T1".toList, none⟩, ⟨"t2".toList, "T2".toList, none⟩] : List Topic).length))
    ∧ keysOf (map_chunks_to_topics
        [⟨"t1".toList, "T1".toList, none⟩, ⟨"t2".toList, "T2".toList, none⟩]
        [[(1 : ℚ), 0], [0, 1]] 1)
      = ([⟨"t1".toList, "T1".toList, none⟩, ⟨"t2".toList, "T2".toList, none⟩] : List Topic).map
          Topic.id :=
  ⟨⟨by decide, by decide⟩,
   (map_chunks_to_topics_spec
      [⟨"t1".toList, "T1".toList, none⟩, ⟨"t2".toList, "T2".toList, none⟩]
      [[(1 : ℚ), 0], [0, 1]] 1 (by decide) (by decide)).1⟩

end ExamKit
